import Mathlib

/-!
# go-redis `internal/util.go`: `ToLower`, `isLower`, `MakeSliceNextElemFunc`

A shallow embedding of `src/bcs-cc/vendor/github.com/go-redis/redis/internal/util.go`.

* A Go `string` / `[]byte` is a `List Nat` of byte values; byte arithmetic is taken
  modulo `256` explicitly (`addByte`).
* An index expression `s[i]` that is out of range panics in Go; here it yields `none`,
  so every function that indexes returns an `Option`.
* A `for` loop with a known trip count is a structural recursion on the number of
  iterations that remain.
-/

namespace Internal

/-! ## Part 1: `ToLower` and `isLower` -/

/-- The test `c >= 'A' && c <= 'Z'` of lines 13 and 24 (`'A'` is 65, `'Z'` is 90). -/
def isUpperByte (c : Nat) : Bool := decide (65 ≤ c) && decide (c ≤ 90)

/-- Addition on Go's `byte` type: the sum is reduced modulo 256. -/
def addByte (a b : Nat) : Nat := (a + b) % 256

/-- The constant `'a' - 'A'` of line 14 (97 - 65). -/
def caseDelta : Nat := 97 - 65

/-- Loop of `isLower` (lines 22-27): `i` is the loop variable and the last argument is
the number of iterations left, `len(s) - i`. -/
def isLowerLoop (s : List Nat) (i : Nat) : Nat → Option Bool
  | 0 => some true
  | n + 1 =>
    match s[i]? with
    | none => none
    | some c => if isUpperByte c then some false else isLowerLoop s (i + 1) n

/-- Go `isLower` (lines 21-29). -/
def isLower (s : List Nat) : Option Bool := isLowerLoop s 0 (s.length - 0)

/-- Go `make([]byte, n)`: a zeroed byte slice of length `n`. -/
def makeBytes (n : Nat) : List Nat := List.replicate n 0

/-- Modelled from the spec: `BytesToString` lives in another file of the package that is
not part of the sources; the spec says the freshly built sequence is the result, so the
conversion keeps the bytes as they are. -/
def BytesToString (b : List Nat) : List Nat := b

/-- Loop of `ToLower` (lines 11-17): `for i := range b`, with the number of iterations
left as last argument. The store `b[i] = c` panics when `i` is not below `len(b)`. -/
def toLowerLoop (s : List Nat) (b : List Nat) (i : Nat) : Nat → Option (List Nat)
  | 0 => some b
  | n + 1 =>
    match s[i]? with
    | none => none
    | some c =>
      let c1 := if isUpperByte c then addByte c caseDelta else c
      if i < b.length then toLowerLoop s (b.set i c1) (i + 1) n else none

/-- Go `ToLower` (lines 5-19) with a ghost flag: the second component tells whether the
`make` of line 10 was executed, that is, whether a new sequence was built. -/
def ToLowerTraced (s : List Nat) : Option (List Nat × Bool) :=
  match isLower s with
  | none => none
  | some true => some (s, false)
  | some false =>
    let b := makeBytes s.length
    (toLowerLoop s b 0 b.length).map fun r => (BytesToString r, true)

/-- Go `ToLower` (lines 5-19). -/
def ToLower (s : List Nat) : Option (List Nat) := (ToLowerTraced s).map Prod.fst

/-- The byte the loop body of `ToLower` stores for an input byte `c`, as a pure function
(used to state the result). -/
def lowerByte (c : Nat) : Nat := if 65 ≤ c ∧ c ≤ 90 then c + 32 else c

/-- Standard UTF-8 encoding of one Unicode scalar value (RFC 3629), as Go stores the
characters of a valid string. -/
def utf8EncodeChar (c : Char) : List Nat :=
  let v := c.val.toNat
  if v ≤ 0x7f then [v]
  else if v ≤ 0x7ff then [0xc0 + v / 64, 0x80 + v % 64]
  else if v ≤ 0xffff then [0xe0 + v / 4096, 0x80 + (v / 64) % 64, 0x80 + v % 64]
  else [0xf0 + v / 262144, 0x80 + (v / 4096) % 64, 0x80 + (v / 64) % 64, 0x80 + v % 64]

/-- UTF-8 encoding of a sequence of Unicode scalar values. -/
def utf8Encode (t : List Char) : List Nat := t.flatMap utf8EncodeChar

/-- Replace a code point in U+0041..U+005A by the one 0x20 above it. -/
def lowerCodePoint (c : Char) : Char :=
  if 0x41 ≤ c.val.toNat ∧ c.val.toNat ≤ 0x5a then Char.ofNat (c.val.toNat + 0x20) else c

/-! ## Part 2: `MakeSliceNextElemFunc`

The reflect value `v` captured by the closures addresses a slice variable. Its state is a
slice header (address of element 0, length, capacity) together with the memory the header
points into. Memory is a flat list of cells, an address is an index into it, and an
allocation adds cells at the end, so that a fresh block never overlaps an older one.

The operations of package `reflect` used by the source (`Len`, `Cap`, `Slice`, `Index`,
`Set`, `IsNil`, `Elem`, `New`, `Zero`, `Append`) are modelled after their documentation;
those that panic in Go return `none`. Lengths and indices are Go `int`s: `v.Len() + 1` and
`v.Len() - 1` are computed in `Int`, so that an index of `-1` is seen as out of range.
(A length is at most the capacity of an allocated array, far below the largest `int`, so
`v.Len() + 1` cannot overflow.)

Objects of a type of size zero have no storage of their own in Go: `reflect.New` gives all of
them one shared address. `reflectNew` models this for the pointees of the pointer variant,
with a flag `zeroSize` that belongs to the element type. The cells of a slice are modelled
with an address each; no statement below for all element types says that the array of a
grown value slice lies at a new address.
-/

/-- A Go slice header: address of element 0, length, capacity. -/
structure Slice where
  /-- Address in memory of element 0. -/
  ptr : Nat
  /-- Result of `Len()`. -/
  len : Nat
  /-- Result of `Cap()`. -/
  cap : Nat
deriving DecidableEq, Repr

/-- Go `Value.Slice(i, j)` of `reflect` on a slice: the header of `v[i:j]`; it panics unless
`0 ≤ i ≤ j ≤ cap`. -/
def Slice.reslice (v : Slice) (i j : Int) : Option Slice :=
  if 0 ≤ i ∧ i ≤ j ∧ j ≤ (v.cap : Int) then
    some { ptr := v.ptr + i.toNat, len := (j - i).toNat, cap := v.cap - i.toNat }
  else none

/-- Go `Value.Index(i)` of `reflect` on a slice: the address of element `i`; it panics unless
`0 ≤ i < len`. -/
def Slice.index (v : Slice) (i : Int) : Option Nat :=
  if 0 ≤ i ∧ i < (v.len : Int) then some (v.ptr + i.toNat) else none

/-- Go `reflect.Append(v, x)` for one element. When `len + 1 ≤ cap` the slice is re-sliced
and `x` stored in place. Otherwise a new array is allocated (at the end of memory) that holds
the `len` old elements, then `x`, then spare cells holding `fill` (the zero value of the cell
type). The new capacity is `len + 1 + spare cap`: the growth policy `spare` belongs to the Go
runtime and is a parameter (doubling is `spare c = c - 1`). -/
def reflectAppend {α : Type} (spare : Nat → Nat) (fill : α) (mem : List α) (v : Slice) (x : α) :
    Option (List α × Slice) :=
  if v.len + 1 ≤ v.cap then
    match v.reslice 0 ((v.len : Int) + 1) with
    | none => none
    | some v1 =>
      match v1.index (v.len : Int) with
      | none => none
      | some a => if a < mem.length then some (mem.set a x, v1) else none
  else
    some (mem ++ ((mem.drop v.ptr).take v.len ++ x :: List.replicate (spare v.cap) fill),
      { ptr := mem.length, len := v.len + 1, cap := v.len + 1 + spare v.cap })

/-- State of the value-element variant (element type `T`): memory cells hold values of `T`. -/
structure ValState (T : Type) where
  /-- Memory: cells of type `T`. -/
  mem : List T
  /-- The slice variable addressed by the captured `v`. -/
  v : Slice
deriving DecidableEq, Repr

/-- State of the pointer-element variant (element type `*T`): a memory cell holds a pointer,
`none` for nil and `some p` for the address `p` of an object in the heap `objs`. -/
structure PtrState (T : Type) where
  /-- Memory: cells of type `*T`. -/
  mem : List (Option Nat)
  /-- Heap of objects of type `T`; a pointer is an index into it. -/
  objs : List T
  /-- The slice variable addressed by the captured `v`. -/
  v : Slice
deriving DecidableEq, Repr

/-- The closure of lines 53-61 (value elements): one invocation. `zero` is
`reflect.Zero(elemType)`. The result is the returned reference (the address of a cell) and
the new state. -/
def nextVal {T : Type} (spare : Nat → Nat) (zero : T) (s : ValState T) :
    Option (Nat × ValState T) :=
  if s.v.len < s.v.cap then
    match s.v.reslice 0 ((s.v.len : Int) + 1) with
    | none => none
    | some v1 =>
      match v1.index ((v1.len : Int) - 1) with
      | none => none
      | some r => some (r, { s with v := v1 })
  else
    match reflectAppend spare zero s.mem s.v zero with
    | none => none
    | some (mem1, v1) =>
      match v1.index ((v1.len : Int) - 1) with
      | none => none
      | some r => some (r, { mem := mem1, v := v1 })

/-- Go `reflect.New(elemType)`: allocate an object holding the zero value of `T`; the result
is the pointer to it and the new heap. `zeroSize` tells whether `T` is a type of size zero
(such as `struct{}`): the Go runtime then allocates nothing and returns the one address that
all allocations of size zero share, here address 0 of the heap, which gets its object when
the heap is still empty. For a type of nonzero size the object is added at the end of the
heap, at an address that no older pointer holds. -/
def reflectNew {T : Type} (zeroSize : Bool) (zero : T) (objs : List T) : Nat × List T :=
  if zeroSize then
    (0, match objs with
      | [] => [zero]
      | o :: rest => o :: rest)
  else (objs.length, objs ++ [zero])

/-- The closure of lines 36-49 (pointer elements): one invocation. `zero` is the zero value
of `T` and `zeroSize` tells whether `T` has size zero; both belong to `elemType` and are used
by `reflect.New(elemType)`. The result is the value of `elem.Elem()` (`some p` for a reference
to the object at `p`, `none` for the invalid `Value` that `Elem` gives on a nil pointer) and
the new state. -/
def nextPtr {T : Type} (spare : Nat → Nat) (zeroSize : Bool) (zero : T) (s : PtrState T) :
    Option (Option Nat × PtrState T) :=
  if s.v.len < s.v.cap then
    match s.v.reslice 0 ((s.v.len : Int) + 1) with
    | none => none
    | some v1 =>
      match v1.index ((v1.len : Int) - 1) with
      | none => none
      | some a =>
        match s.mem[a]? with
        | none => none
        | some none =>
          let n := reflectNew zeroSize zero s.objs
          let mem1 := s.mem.set a (some n.1)
          match mem1[a]? with
          | none => none
          | some r => some (r, { mem := mem1, objs := n.2, v := v1 })
        | some (some p) => some (some p, { s with v := v1 })
  else
    let n := reflectNew zeroSize zero s.objs
    match reflectAppend spare none s.mem s.v (some n.1) with
    | none => none
    | some (mem1, v1) => some (some n.1, { mem := mem1, objs := n.2, v := v1 })

/-- Language invariant of a slice over its memory: `len ≤ cap`, and the `cap` cells from `ptr`
on are allocated. -/
def ValState.WF {T : Type} (s : ValState T) : Prop :=
  s.v.len ≤ s.v.cap ∧ s.v.ptr + s.v.cap ≤ s.mem.length

instance {T : Type} (s : ValState T) : Decidable s.WF := by
  unfold ValState.WF
  infer_instance

/-- A pointer cell is valid for a heap of `n` objects: nil, or an address below `n`. -/
def validCell (n : Nat) : Option Nat → Bool
  | none => true
  | some p => decide (p < n)

/-- Language invariant for the pointer variant: `len ≤ cap`, the `cap` cells from `ptr` on are
allocated, and every non-nil pointer in memory points to an allocated object. -/
def PtrState.WF {T : Type} (s : PtrState T) : Prop :=
  s.v.len ≤ s.v.cap ∧ s.v.ptr + s.v.cap ≤ s.mem.length ∧
    ∀ c ∈ s.mem, validCell s.objs.length c = true

instance {T : Type} (s : PtrState T) : Decidable s.WF := by
  unfold PtrState.WF
  infer_instance

/-- The slice variable behind the captured `v`, tagged by the kind of its element type, which
line 34 tests with `elemType.Kind() == reflect.Ptr`. -/
inductive SliceVar (T : Type) where
  | values (s : ValState T) : SliceVar T
  | pointers (s : PtrState T) : SliceVar T
deriving DecidableEq, Repr

/-- A reference returned by the accessor: the address of a cell (value elements) or the
result of `elem.Elem()` (pointer elements). -/
inductive Ref where
  | cell (a : Nat) : Ref
  | pointee (p : Option Nat) : Ref
deriving DecidableEq, Repr

/-- Go `MakeSliceNextElemFunc` (lines 31-62), one invocation of the function it returns: the
element kind selects the closure of lines 36-49 or the one of lines 53-61. `zeroSize` and
`zero` describe the element type `T`, as for `nextPtr`. -/
def MakeSliceNextElemFunc {T : Type} (spare : Nat → Nat) (zeroSize : Bool) (zero : T) :
    SliceVar T → Option (Ref × SliceVar T)
  | SliceVar.pointers s =>
    match nextPtr spare zeroSize zero s with
    | none => none
    | some (r, s1) => some (Ref.pointee r, SliceVar.pointers s1)
  | SliceVar.values s =>
    match nextVal spare zero s with
    | none => none
    | some (r, s1) => some (Ref.cell r, SliceVar.values s1)

/-- Go `v.Len()`. -/
def SliceVar.len {T : Type} : SliceVar T → Nat
  | SliceVar.values s => s.v.len
  | SliceVar.pointers s => s.v.len

/-- Go `v.Cap()`. -/
def SliceVar.cap {T : Type} : SliceVar T → Nat
  | SliceVar.values s => s.v.cap
  | SliceVar.pointers s => s.v.cap

/-- Language invariant of the slice variable, for either element kind. -/
def SliceVar.WF {T : Type} : SliceVar T → Prop
  | SliceVar.values s => s.WF
  | SliceVar.pointers s => s.WF

instance {T : Type} (sv : SliceVar T) : Decidable sv.WF := by
  cases sv <;> (unfold SliceVar.WF; infer_instance)

/-- Go `v[i]` (value elements): `none` when `i` is out of range. -/
def ValState.elemAt {T : Type} (s : ValState T) (i : Nat) : Option T :=
  if i < s.v.len then s.mem[s.v.ptr + i]? else none

/-- Go `v[i]` (pointer elements): the pointer held by element `i`. -/
def PtrState.elemAt {T : Type} (s : PtrState T) (i : Nat) : Option (Option Nat) :=
  if i < s.v.len then s.mem[s.v.ptr + i]? else none

/-- Go `*v[i]`: the object element `i` points to; `none` when `i` is out of range or the
pointer is nil. -/
def PtrState.derefAt {T : Type} (s : PtrState T) (i : Nat) : Option T :=
  match s.elemAt i with
  | some (some p) => s.objs[p]?
  | _ => none

/-- No two cells of the backing array (the `cap` cells from `ptr` on) hold the same non-nil
pointer: two different cells with equal content are nil. -/
def PtrState.NoAlias {T : Type} (s : PtrState T) : Prop :=
  ∀ i, i < s.v.cap → ∀ j, j < s.v.cap →
    i ≠ j ∧ s.mem[s.v.ptr + i]? = s.mem[s.v.ptr + j]? → s.mem[s.v.ptr + i]? = some none

instance {T : Type} (s : PtrState T) : Decidable s.NoAlias := by
  unfold PtrState.NoAlias
  infer_instance

/-- A step of a client of the accessor: invoke it, or write `x` through the reference that
the `k`-th invocation returned (`k` counts from 1). -/
inductive Op (T : Type) where
  | call : Op T
  | write (k : Nat) (x : T) : Op T
deriving DecidableEq, Repr

/-- Run a sequence of client steps on the value variant. The state carries the references
returned so far. A write through a reference that was not returned yet fails. -/
def execVal {T : Type} (spare : Nat → Nat) (zero : T) :
    List (Op T) → List Nat × ValState T → Option (List Nat × ValState T)
  | [], st => some st
  | Op.call :: ops, st =>
    match nextVal spare zero st.2 with
    | none => none
    | some (r, s1) => execVal spare zero ops (st.1 ++ [r], s1)
  | Op.write k x :: ops, st =>
    if k = 0 then none
    else
      match st.1[k - 1]? with
      | none => none
      | some r =>
        if r < st.2.mem.length then
          execVal spare zero ops (st.1, { st.2 with mem := st.2.mem.set r x })
        else none

/-- Run a sequence of client steps on the pointer variant. A write through the invalid
`Value` panics in Go and fails here. -/
def execPtr {T : Type} (spare : Nat → Nat) (zeroSize : Bool) (zero : T) :
    List (Op T) → List (Option Nat) × PtrState T → Option (List (Option Nat) × PtrState T)
  | [], st => some st
  | Op.call :: ops, st =>
    match nextPtr spare zeroSize zero st.2 with
    | none => none
    | some (r, s1) => execPtr spare zeroSize zero ops (st.1 ++ [r], s1)
  | Op.write k x :: ops, st =>
    if k = 0 then none
    else
      match st.1[k - 1]? with
      | some (some p) =>
        if p < st.2.objs.length then
          execPtr spare zeroSize zero ops (st.1, { st.2 with objs := st.2.objs.set p x })
        else none
      | _ => none

/-- The client that invokes the accessor `n` times. -/
def calls (T : Type) (n : Nat) : List (Op T) := List.replicate n Op.call

/-- The client that, for each value of the list in turn, invokes the accessor and writes the
value through the returned reference before the next invocation; `k` invocations were made
before. -/
def fillOps {T : Type} : Nat → List T → List (Op T)
  | _, [] => []
  | k, x :: xs => Op.call :: Op.write (k + 1) x :: fillOps (k + 1) xs

/-! ### Lemmas on the loops -/

theorem isUpperByte_iff (c : Nat) : isUpperByte c = true ↔ 65 ≤ c ∧ c ≤ 90 := by
  simp [isUpperByte]

theorem addByte_upper (c : Nat) (h : isUpperByte c = true) : addByte c caseDelta = c + 32 := by
  rw [isUpperByte_iff] at h
  simp only [addByte, caseDelta]
  omega

theorem loop_byte_eq (c : Nat) :
    (if isUpperByte c then addByte c caseDelta else c) = lowerByte c := by
  unfold lowerByte
  by_cases h : isUpperByte c = true
  · rw [if_pos h, addByte_upper c h, if_pos ((isUpperByte_iff c).1 h)]
  · rw [if_neg h, if_neg (fun h2 => h ((isUpperByte_iff c).2 h2))]

/-- The scan of `isLower` from index `i` returns, and says whether the rest of `s` is free
of upper-case bytes. -/
theorem isLowerLoop_spec (s : List Nat) :
    ∀ (n i : Nat), i + n = s.length →
      isLowerLoop s i n = some (decide (∀ j, i ≤ j → j < s.length → isUpperByte (s.getD j 0) = false)) := by
  intro n
  induction n with
  | zero =>
    intro i hi
    simp only [isLowerLoop]
    congr 1
    symm
    rw [decide_eq_true_iff]
    intro j h1 h2
    omega
  | succ n ih =>
    intro i hi
    have hlt : i < s.length := by omega
    simp only [isLowerLoop, List.getElem?_eq_getElem hlt]
    by_cases hu : isUpperByte s[i] = true
    · rw [if_pos hu]
      congr 1
      symm
      rw [decide_eq_false_iff_not]
      intro hall
      have := hall i (le_refl _) hlt
      rw [List.getD_eq_getElem _ _ hlt] at this
      rw [this] at hu
      exact Bool.noConfusion hu
    · rw [if_neg hu, ih (i + 1) (by omega)]
      congr 1
      rw [decide_eq_decide]
      constructor
      · intro hall j h1 h2
        by_cases hj : j = i
        · subst hj
          rw [List.getD_eq_getElem _ _ hlt]
          simpa using hu
        · exact hall j (by omega) h2
      · intro hall j h1 h2
        exact hall j (by omega) h2

/-- The transforming loop of `ToLower` returns; it keeps the length of `b` and overwrites
every position from `i` on with the lower-cased byte of `s`. -/
theorem toLowerLoop_spec (s : List Nat) :
    ∀ (n i : Nat) (b : List Nat), i + n = s.length → b.length = s.length →
      ∃ r, toLowerLoop s b i n = some r ∧ r.length = s.length ∧
        ∀ j, j < s.length →
          r.getD j 0 = if i ≤ j then lowerByte (s.getD j 0) else b.getD j 0 := by
  intro n
  induction n with
  | zero =>
    intro i b hi hb
    refine ⟨b, rfl, hb, ?_⟩
    intro j hj
    rw [if_neg (by omega)]
  | succ n ih =>
    intro i b hi hb
    have hlt : i < s.length := by omega
    have hltb : i < b.length := by omega
    simp only [toLowerLoop, List.getElem?_eq_getElem hlt, if_pos hltb, loop_byte_eq]
    obtain ⟨r, hr, hlen, hget⟩ := ih (i + 1) (b.set i (lowerByte s[i])) (by omega)
      (by rw [List.length_set]; exact hb)
    refine ⟨r, hr, hlen, ?_⟩
    intro j hj
    rw [hget j hj]
    by_cases h1 : i + 1 ≤ j
    · rw [if_pos h1, if_pos (by omega)]
    · rw [if_neg h1]
      by_cases h2 : j = i
      · subst h2
        rw [if_pos (le_refl _), List.getD_eq_getElem _ _ hlt,
          List.getD_eq_getElem _ _ (by rw [List.length_set]; exact hltb)]
        simp
      · rw [if_neg (by omega)]
        have hjb : j < b.length := by omega
        rw [List.getD_eq_getElem _ _ hjb,
          List.getD_eq_getElem _ _ (by rw [List.length_set]; exact hjb)]
        rw [List.getElem_set_ne (by omega)]

/-- The loop started at index 0 on a buffer of the right length yields the byte-wise map. -/
theorem toLowerLoop_eq_map (s : List Nat) :
    toLowerLoop s (makeBytes s.length) 0 (makeBytes s.length).length = some (s.map lowerByte) := by
  have hb : (makeBytes s.length).length = s.length := by simp [makeBytes]
  obtain ⟨r, hr, hlen, hget⟩ := toLowerLoop_spec s s.length 0 (makeBytes s.length) (by omega) hb
  rw [hb, hr]
  congr 1
  apply List.ext_getElem
  · rw [hlen, List.length_map]
  · intro j h1 h2
    have hj : j < s.length := by rw [← hlen]; exact h1
    have := hget j hj
    rw [if_pos (Nat.zero_le _), List.getD_eq_getElem _ _ h1, List.getD_eq_getElem _ _ hj] at this
    rw [this, List.getElem_map]

/-- Value of `isLower`: it returns, and the answer is whether no byte is upper case. -/
theorem isLower_eq (s : List Nat) :
    isLower s = some (decide (∀ c ∈ s, isUpperByte c = false)) := by
  unfold isLower
  rw [isLowerLoop_spec s (s.length - 0) 0 (by omega)]
  congr 1
  rw [decide_eq_decide]
  constructor
  · intro h c hc
    obtain ⟨j, hj, rfl⟩ := List.getElem_of_mem hc
    have := h j (Nat.zero_le _) hj
    rwa [List.getD_eq_getElem _ _ hj] at this
  · intro h j _ hj
    rw [List.getD_eq_getElem _ _ hj]
    exact h _ (List.getElem_mem hj)

theorem map_lowerByte_of_noUpper (s : List Nat) (h : ∀ c ∈ s, isUpperByte c = false) :
    s.map lowerByte = s := by
  induction s with
  | nil => rfl
  | cons a t ih =>
    have ha : ¬ (65 ≤ a ∧ a ≤ 90) := by
      intro hh
      have := h a (List.mem_cons_self _ _)
      rw [(isUpperByte_iff a).2 hh] at this
      exact Bool.noConfusion this
    rw [List.map_cons, ih (fun c hc => h c (List.mem_cons_of_mem _ hc))]
    simp only [lowerByte, if_neg ha]

/-- Functional characterisation of the instrumented `ToLower`. -/
theorem ToLowerTraced_eq (s : List Nat) :
    ToLowerTraced s =
      some (s.map lowerByte, !decide (∀ c ∈ s, isUpperByte c = false)) := by
  unfold ToLowerTraced
  rw [isLower_eq]
  by_cases h : ∀ c ∈ s, isUpperByte c = false
  · rw [decide_eq_true h]
    simp only [map_lowerByte_of_noUpper s h, Bool.not_true]
  · rw [decide_eq_false h]
    simp only [toLowerLoop_eq_map, BytesToString, Option.map_some', Bool.not_false]

/-- Functional characterisation of `ToLower`: it returns the byte-wise map. -/
theorem ToLower_eq_map (s : List Nat) : ToLower s = some (s.map lowerByte) := by
  unfold ToLower
  rw [ToLowerTraced_eq]
  rfl

/-! ### UTF-8 lemmas -/

theorem toNat_ofNat_lower (v : Nat) (h : v ≤ 90) : (Char.ofNat (v + 32)).val.toNat = v + 32 := by
  have hv : (v + 32).isValidChar := by
    left
    omega
  simp only [Char.ofNat, hv, Char.ofNatAux, dite_true]
  rfl

/-- Encoding a lower-cased code point is the same as lower-casing the bytes of its encoding. -/
theorem utf8EncodeChar_lower (c : Char) :
    utf8EncodeChar (lowerCodePoint c) = (utf8EncodeChar c).map lowerByte := by
  unfold lowerCodePoint
  by_cases hu : 0x41 ≤ c.val.toNat ∧ c.val.toNat ≤ 0x5a
  · rw [if_pos hu]
    have h1 := toNat_ofNat_lower c.val.toNat hu.2
    have h2 : c.val.toNat ≤ 0x7f := by omega
    have h3 : c.val.toNat + 32 ≤ 0x7f := by omega
    have h4 : 65 ≤ c.val.toNat ∧ c.val.toNat ≤ 90 := hu
    simp only [utf8EncodeChar, h1, if_pos h2, if_pos h3, List.map_cons, List.map_nil, lowerByte,
      if_pos h4]
  · rw [if_neg hu]
    have key : ∀ b ∈ utf8EncodeChar c, lowerByte b = b := by
      intro b hb
      have hb2 : ¬ (65 ≤ b ∧ b ≤ 90) := by
        unfold utf8EncodeChar at hb
        simp only at hb
        split_ifs at hb with g1 g2 g3
        · simp only [List.mem_singleton] at hb
          subst hb
          exact hu
        · simp only [List.mem_cons, List.mem_singleton, List.mem_nil_iff, or_false] at hb
          omega
        · simp only [List.mem_cons, List.mem_singleton, List.mem_nil_iff, or_false] at hb
          omega
        · simp only [List.mem_cons, List.mem_singleton, List.mem_nil_iff, or_false] at hb
          omega
      simp only [lowerByte, if_neg hb2]
    symm
    conv_rhs => rw [← List.map_id (utf8EncodeChar c)]
    exact List.map_congr_left key

theorem utf8Encode_lower (t : List Char) :
    utf8Encode (t.map lowerCodePoint) = (utf8Encode t).map lowerByte := by
  induction t with
  | nil => rfl
  | cons c t ih =>
    have e1 : utf8Encode (c :: t) = utf8EncodeChar c ++ utf8Encode t := by
      simp [utf8Encode]
    have e2 : utf8Encode ((c :: t).map lowerCodePoint) =
        utf8EncodeChar (lowerCodePoint c) ++ utf8Encode (t.map lowerCodePoint) := by
      simp [utf8Encode]
    rw [e2, e1, List.map_append, ih, utf8EncodeChar_lower]

/-- Every byte of the encoding of a non-ASCII code point is at least 0x80. -/
theorem utf8EncodeChar_high (c : Char) (hc : 0x80 ≤ c.val.toNat) :
    ∀ b ∈ utf8EncodeChar c, 0x80 ≤ b := by
  intro b hb
  unfold utf8EncodeChar at hb
  simp only at hb
  split_ifs at hb with g1 g2 g3
  · omega
  · simp only [List.mem_cons, List.mem_singleton, List.mem_nil_iff, or_false] at hb
    omega
  · simp only [List.mem_cons, List.mem_singleton, List.mem_nil_iff, or_false] at hb
    omega
  · simp only [List.mem_cons, List.mem_singleton, List.mem_nil_iff, or_false] at hb
    omega

/-! ### Claims on `ToLower` -/

/-- C1: for every byte string `s` with at least one byte in 'A'..'Z', `ToLower s` returns a
newly built sequence of the same length as `s` whose byte at every index `i` is `s[i] + 32`
when `s[i]` is in 'A'..'Z' and is exactly `s[i]` otherwise. -/
theorem ToLower_upper_present (s : List Nat) (hs : ∃ c ∈ s, 65 ≤ c ∧ c ≤ 90) :
    ∃ r, ToLower s = some r ∧ ToLowerTraced s = some (r, true) ∧ r.length = s.length ∧
      ∀ (i : Nat) (hi : i < s.length),
        (65 ≤ s[i] ∧ s[i] ≤ 90 → r[i]? = some (s[i] + ('a'.toNat - 'A'.toNat))) ∧
        (¬ (65 ≤ s[i] ∧ s[i] ≤ 90) → r[i]? = some s[i]) := by
  have hno : ¬ ∀ c ∈ s, isUpperByte c = false := by
    intro hall
    obtain ⟨c, hc, hcu⟩ := hs
    have := hall c hc
    rw [(isUpperByte_iff c).2 hcu] at this
    exact Bool.noConfusion this
  refine ⟨s.map lowerByte, ToLower_eq_map s, ?_, List.length_map _ _, ?_⟩
  · rw [ToLowerTraced_eq, decide_eq_false hno]
    rfl
  · intro i hi
    have hget : (s.map lowerByte)[i]? = some (lowerByte s[i]) := by
      rw [List.getElem?_map, List.getElem?_eq_getElem hi]
      rfl
    constructor
    · intro hu
      rw [hget]
      simp only [lowerByte, if_pos hu]
      rfl
    · intro hu
      rw [hget]
      simp only [lowerByte, if_neg hu]

/-- Witness for C1 on the bytes of "aB~". -/
theorem ToLower_upper_present_witness :
    ∃ r, ToLower [97, 66, 126] = some r ∧ ToLowerTraced [97, 66, 126] = some (r, true) ∧
      r.length = [97, 66, 126].length ∧
      ∀ (i : Nat) (hi : i < [97, 66, 126].length),
        (65 ≤ [97, 66, 126][i] ∧ [97, 66, 126][i] ≤ 90 →
          r[i]? = some ([97, 66, 126][i] + ('a'.toNat - 'A'.toNat))) ∧
        (¬ (65 ≤ [97, 66, 126][i] ∧ [97, 66, 126][i] ≤ 90) → r[i]? = some [97, 66, 126][i]) :=
  ToLower_upper_present [97, 66, 126] ⟨66, by decide, by decide⟩

/-- C2: for every byte string `s` without a byte in 'A'..'Z' (the empty string included),
the scan `isLower` answers true and `ToLower` returns `s` itself through the fast path,
without executing the `make` that builds a new sequence. -/
theorem ToLower_no_upper (s : List Nat) (hs : ∀ c ∈ s, ¬ (65 ≤ c ∧ c ≤ 90)) :
    isLower s = some true ∧ ToLowerTraced s = some (s, false) ∧ ToLower s = some s := by
  have hall : ∀ c ∈ s, isUpperByte c = false := by
    intro c hc
    cases h : isUpperByte c with
    | false => rfl
    | true => exact absurd ((isUpperByte_iff c).1 h) (hs c hc)
  have h1 : isLower s = some true := by
    rw [isLower_eq, decide_eq_true hall]
  have h2 : ToLowerTraced s = some (s, false) := by
    unfold ToLowerTraced
    rw [h1]
  refine ⟨h1, h2, ?_⟩
  unfold ToLower
  rw [h2]
  rfl

/-- Witness for C2 on the bytes of "a1\xc3\xa9" and on the empty string. -/
theorem ToLower_no_upper_witness :
    (isLower [97, 49, 195, 169] = some true ∧
      ToLowerTraced [97, 49, 195, 169] = some ([97, 49, 195, 169], false) ∧
      ToLower [97, 49, 195, 169] = some [97, 49, 195, 169]) ∧
    (isLower [] = some true ∧ ToLowerTraced [] = some ([], false) ∧ ToLower [] = some []) :=
  ⟨ToLower_no_upper [97, 49, 195, 169] (by decide), ToLower_no_upper [] (by simp)⟩

/-- C3: for every sequence `t` of Unicode scalar values, `ToLower` of the UTF-8 encoding of
`t` is the UTF-8 encoding of `t` with each code point U+0041..U+005A replaced by the one 0x20
above it and every other code point kept; no byte of a multi-byte character is changed. -/
theorem ToLower_utf8 (t : List Char) :
    ToLower (utf8Encode t) = some (utf8Encode (t.map lowerCodePoint)) ∧
    ∀ c ∈ t, 0x80 ≤ c.val.toNat →
      lowerCodePoint c = c ∧ ToLower (utf8EncodeChar c) = some (utf8EncodeChar c) := by
  constructor
  · rw [ToLower_eq_map, utf8Encode_lower]
  · intro c _ hc
    constructor
    · unfold lowerCodePoint
      rw [if_neg (by omega)]
    · rw [ToLower_eq_map]
      congr 1
      conv_rhs => rw [← List.map_id (utf8EncodeChar c)]
      apply List.map_congr_left
      intro b hb
      have := utf8EncodeChar_high c hc b hb
      simp only [lowerByte, id]
      rw [if_neg (by omega)]

/-- Witness for C3 on the string "Aé€😀Z", and on its two-byte character. -/
theorem ToLower_utf8_witness :
    ToLower (utf8Encode ['A', 'é', '€', '😀', 'Z']) =
        some (utf8Encode (['A', 'é', '€', '😀', 'Z'].map lowerCodePoint)) ∧
    (lowerCodePoint 'é' = 'é' ∧ ToLower (utf8EncodeChar 'é') = some (utf8EncodeChar 'é')) :=
  ⟨(ToLower_utf8 ['A', 'é', '€', '😀', 'Z']).1,
   (ToLower_utf8 ['A', 'é', '€', '😀', 'Z']).2 'é' (by decide) (by decide)⟩

/-- C8: `ToLower` is total: for every byte string `s` it returns a result (no index of `s`
or `b` is out of range, the buffer `b` having the length of `s`), and the byte addition
`c + ('a' - 'A')` done for `c` in 'A'..'Z' does not wrap around modulo 256. -/
theorem ToLower_total :
    (∀ s : List Nat, ∃ r, ToLower s = some r) ∧
    (∀ s : List Nat, ∃ b, isLower s = some b) ∧
    (∀ s : List Nat, (makeBytes s.length).length = s.length) ∧
    (∀ s : List Nat, ∃ r, toLowerLoop s (makeBytes s.length) 0 (makeBytes s.length).length = some r) ∧
    (∀ c : Nat, isUpperByte c = true → addByte c caseDelta = c + caseDelta ∧ c + caseDelta < 256) := by
  refine ⟨fun s => ⟨_, ToLower_eq_map s⟩, fun s => ⟨_, isLower_eq s⟩, ?_,
    fun s => ⟨_, toLowerLoop_eq_map s⟩, ?_⟩
  · intro s
    simp [makeBytes]
  · intro c hc
    have h := (isUpperByte_iff c).1 hc
    rw [addByte_upper c hc]
    simp only [caseDelta]
    exact ⟨trivial, by omega⟩

/-- Witness for C8: the empty string, a string with bytes above 0x7f, and the byte 'Z'. -/
theorem ToLower_total_witness :
    (∃ r, ToLower [] = some r) ∧ (∃ r, ToLower [200, 90, 255] = some r) ∧
    (addByte 90 caseDelta = 90 + caseDelta ∧ 90 + caseDelta < 256) :=
  ⟨ToLower_total.1 [], ToLower_total.1 [200, 90, 255], ToLower_total.2.2.2.2 90 (by decide)⟩

/-! ### Lemmas on the reflect operations -/

theorem reslice_zero (v : Slice) (j : Nat) (h : j ≤ v.cap) :
    v.reslice 0 ((j : Int)) = some { ptr := v.ptr, len := j, cap := v.cap } := by
  unfold Slice.reslice
  rw [if_pos ⟨le_refl _, by omega, by omega⟩]
  simp

theorem index_nat (v : Slice) (i : Nat) (h : i < v.len) :
    v.index (i : Int) = some (v.ptr + i) := by
  unfold Slice.index
  rw [if_pos ⟨by omega, by omega⟩]
  simp

/-- The reuse branch of the value variant, in closed form. -/
theorem nextVal_reuse {T : Type} (spare : Nat → Nat) (zero : T) (s : ValState T)
    (h : s.v.len < s.v.cap) :
    nextVal spare zero s =
      some (s.v.ptr + s.v.len,
        { mem := s.mem, v := { ptr := s.v.ptr, len := s.v.len + 1, cap := s.v.cap } }) := by
  unfold nextVal
  rw [if_pos h]
  have e1 : ((s.v.len : Int) + 1) = ((s.v.len + 1 : Nat) : Int) := by push_cast; rfl
  rw [e1, reslice_zero s.v (s.v.len + 1) h]
  simp only
  have e2 : (((s.v.len + 1 : Nat) : Int) - 1) = ((s.v.len : Nat) : Int) := by push_cast; omega
  rw [e2, index_nat _ s.v.len (Nat.lt_succ_self _)]

/-- The growing branch of `reflect.Append`, in closed form. -/
theorem reflectAppend_full {α : Type} (spare : Nat → Nat) (fill : α) (mem : List α) (v : Slice)
    (x : α) (h : ¬ v.len < v.cap) :
    reflectAppend spare fill mem v x =
      some (mem ++ ((mem.drop v.ptr).take v.len ++ x :: List.replicate (spare v.cap) fill),
        { ptr := mem.length, len := v.len + 1, cap := v.len + 1 + spare v.cap }) := by
  unfold reflectAppend
  rw [if_neg (by omega)]

/-- The growing branch of the value variant, in closed form. -/
theorem nextVal_grow {T : Type} (spare : Nat → Nat) (zero : T) (s : ValState T)
    (h : ¬ s.v.len < s.v.cap) :
    nextVal spare zero s =
      some (s.mem.length + s.v.len,
        { mem := s.mem ++ ((s.mem.drop s.v.ptr).take s.v.len ++
            zero :: List.replicate (spare s.v.cap) zero),
          v := { ptr := s.mem.length, len := s.v.len + 1, cap := s.v.len + 1 + spare s.v.cap } }) := by
  unfold nextVal
  rw [if_neg h, reflectAppend_full spare zero s.mem s.v zero h]
  simp only
  have e2 : (((s.v.len + 1 : Nat) : Int) - 1) = ((s.v.len : Nat) : Int) := by push_cast; omega
  rw [e2, index_nat _ s.v.len (Nat.lt_succ_self _)]

/-! ### Lemmas on `reflect.New` -/

theorem reflectNew_false {T : Type} (zero : T) (objs : List T) :
    reflectNew false zero objs = (objs.length, objs ++ [zero]) := rfl

theorem reflectNew_true_fst {T : Type} (zero : T) (objs : List T) :
    (reflectNew true zero objs).1 = 0 := rfl

/-- The pointer given by `reflect.New` is an address of the new heap. -/
theorem reflectNew_lt {T : Type} (zs : Bool) (zero : T) (objs : List T) :
    (reflectNew zs zero objs).1 < (reflectNew zs zero objs).2.length := by
  cases zs with
  | false =>
    rw [reflectNew_false]
    simp
  | true =>
    cases objs with
    | nil => exact Nat.zero_lt_one
    | cons o rest => exact Nat.succ_pos _

/-- The heap after `reflect.New` is the old heap, possibly with one more object. -/
theorem reflectNew_old {T : Type} (zs : Bool) (zero : T) (objs : List T) :
    objs.length ≤ (reflectNew zs zero objs).2.length ∧
      ∀ q, q < objs.length → (reflectNew zs zero objs).2[q]? = objs[q]? := by
  cases zs with
  | false =>
    rw [reflectNew_false]
    refine ⟨by simp, ?_⟩
    intro q hq
    exact List.getElem?_append_left hq
  | true =>
    cases objs with
    | nil => exact ⟨Nat.zero_le _, fun q hq => absurd hq (Nat.not_lt_zero _)⟩
    | cons o rest => exact ⟨le_refl _, fun _ _ => rfl⟩

/-- The object `reflect.New` points to holds the zero value; a type of size zero has a single
value. -/
theorem reflectNew_get {T : Type} (zs : Bool) (zero : T) (objs : List T)
    (hz : zs = true → ∀ x : T, x = zero) :
    (reflectNew zs zero objs).2[(reflectNew zs zero objs).1]? = some zero := by
  cases zs with
  | false =>
    rw [reflectNew_false]
    simp
  | true =>
    cases objs with
    | nil => rfl
    | cons o rest =>
      have e : reflectNew true zero (o :: rest) = (0, o :: rest) := rfl
      rw [e, hz rfl o]
      simp

/-- The reuse branch of the pointer variant on a nil slot, in closed form. -/
theorem nextPtr_reuse_nil {T : Type} (spare : Nat → Nat) (zs : Bool) (zero : T) (s : PtrState T)
    (h : s.v.len < s.v.cap) (hc : s.mem[s.v.ptr + s.v.len]? = some none) :
    nextPtr spare zs zero s =
      some (some (reflectNew zs zero s.objs).1,
        { mem := s.mem.set (s.v.ptr + s.v.len) (some (reflectNew zs zero s.objs).1),
          objs := (reflectNew zs zero s.objs).2,
          v := { ptr := s.v.ptr, len := s.v.len + 1, cap := s.v.cap } }) := by
  unfold nextPtr
  rw [if_pos h]
  have e1 : ((s.v.len : Int) + 1) = ((s.v.len + 1 : Nat) : Int) := by push_cast; rfl
  rw [e1, reslice_zero s.v (s.v.len + 1) h]
  simp only
  have e2 : (((s.v.len + 1 : Nat) : Int) - 1) = ((s.v.len : Nat) : Int) := by push_cast; omega
  rw [e2, index_nat _ s.v.len (Nat.lt_succ_self _)]
  simp only [hc]
  have hlt : s.v.ptr + s.v.len < s.mem.length := by
    by_contra hge
    rw [List.getElem?_eq_none (by omega)] at hc
    exact Option.noConfusion hc
  rw [List.getElem?_set_self hlt]

/-- The reuse branch of the pointer variant on a non-nil slot, in closed form. -/
theorem nextPtr_reuse_some {T : Type} (spare : Nat → Nat) (zs : Bool) (zero : T) (s : PtrState T)
    (h : s.v.len < s.v.cap) (p : Nat) (hc : s.mem[s.v.ptr + s.v.len]? = some (some p)) :
    nextPtr spare zs zero s =
      some (some p,
        { mem := s.mem, objs := s.objs,
          v := { ptr := s.v.ptr, len := s.v.len + 1, cap := s.v.cap } }) := by
  unfold nextPtr
  rw [if_pos h]
  have e1 : ((s.v.len : Int) + 1) = ((s.v.len + 1 : Nat) : Int) := by push_cast; rfl
  rw [e1, reslice_zero s.v (s.v.len + 1) h]
  simp only
  have e2 : (((s.v.len + 1 : Nat) : Int) - 1) = ((s.v.len : Nat) : Int) := by push_cast; omega
  rw [e2, index_nat _ s.v.len (Nat.lt_succ_self _)]
  simp only [hc]

/-- The growing branch of the pointer variant, in closed form. -/
theorem nextPtr_grow {T : Type} (spare : Nat → Nat) (zs : Bool) (zero : T) (s : PtrState T)
    (h : ¬ s.v.len < s.v.cap) :
    nextPtr spare zs zero s =
      some (some (reflectNew zs zero s.objs).1,
        { mem := s.mem ++ ((s.mem.drop s.v.ptr).take s.v.len ++
            some (reflectNew zs zero s.objs).1 :: List.replicate (spare s.v.cap) none),
          objs := (reflectNew zs zero s.objs).2,
          v := { ptr := s.mem.length, len := s.v.len + 1, cap := s.v.len + 1 + spare s.v.cap } }) := by
  unfold nextPtr
  simp only
  rw [if_neg h, reflectAppend_full spare none s.mem s.v (some (reflectNew zs zero s.objs).1) h]

/-! ### The memory after a growing append -/

theorem window_length {α : Type} (mem : List α) (ptr len : Nat) (h : ptr + len ≤ mem.length) :
    ((mem.drop ptr).take len).length = len := by
  rw [List.length_take, List.length_drop]
  omega

theorem window_get {α : Type} (mem : List α) (ptr len i : Nat) (hi : i < len) :
    ((mem.drop ptr).take len)[i]? = mem[ptr + i]? := by
  rw [List.getElem?_take_of_lt hi, List.getElem?_drop]

/-- Cells of the old memory keep their content. -/
theorem grow_get_old {α : Type} (mem tail : List α) (a : Nat) (ha : a < mem.length) :
    (mem ++ tail)[a]? = mem[a]? :=
  List.getElem?_append_left ha

/-- The first `len` cells of the new array are the old elements. -/
theorem grow_get_lt {α : Type} (mem : List α) (ptr len : Nat) (x : α) (rest : List α)
    (h : ptr + len ≤ mem.length) (i : Nat) (hi : i < len) :
    (mem ++ ((mem.drop ptr).take len ++ x :: rest))[mem.length + i]? = mem[ptr + i]? := by
  rw [List.getElem?_append_right (by omega)]
  have e : mem.length + i - mem.length = i := by omega
  rw [e, List.getElem?_append_left (by rw [window_length mem ptr len h]; exact hi),
    window_get mem ptr len i hi]

/-- Cell `len` of the new array is the appended element. -/
theorem grow_get_eq {α : Type} (mem : List α) (ptr len : Nat) (x : α) (rest : List α)
    (h : ptr + len ≤ mem.length) :
    (mem ++ ((mem.drop ptr).take len ++ x :: rest))[mem.length + len]? = some x := by
  rw [List.getElem?_append_right (by omega)]
  have e : mem.length + len - mem.length = len := by omega
  rw [e, List.getElem?_append_right (by rw [window_length mem ptr len h]),
    window_length mem ptr len h]
  simp

/-- The cells after `len` of the new array hold the fill value. -/
theorem grow_get_gt {α : Type} (mem : List α) (ptr len : Nat) (x fill : α) (n : Nat)
    (h : ptr + len ≤ mem.length) (i : Nat) (h1 : len < i) (h2 : i < len + 1 + n) :
    (mem ++ ((mem.drop ptr).take len ++ x :: List.replicate n fill))[mem.length + i]? =
      some fill := by
  rw [List.getElem?_append_right (by omega)]
  have e : mem.length + i - mem.length = i := by omega
  rw [e, List.getElem?_append_right (by rw [window_length mem ptr len h]; omega),
    window_length mem ptr len h]
  obtain ⟨d, rfl⟩ : ∃ d, i = len + 1 + d := ⟨i - len - 1, by omega⟩
  have e2 : len + 1 + d - len = d + 1 := by omega
  rw [e2, List.getElem?_cons_succ, List.getElem?_replicate]
  rw [if_pos (by omega)]

theorem grow_length {α : Type} (mem : List α) (ptr len : Nat) (x fill : α) (n : Nat)
    (h : ptr + len ≤ mem.length) :
    (mem ++ ((mem.drop ptr).take len ++ x :: List.replicate n fill)).length =
      mem.length + (len + 1 + n) := by
  simp only [List.length_append, window_length mem ptr len h, List.length_cons,
    List.length_replicate]
  omega

/-! ### One invocation, value variant -/

/-- Summary of one invocation of the value variant on a well-formed state: it returns, the
state stays well formed, the length grows by one, the reference is the address of the new
last element, old memory cells and old elements are kept. -/
theorem nextVal_step {T : Type} (spare : Nat → Nat) (zero : T) (s : ValState T) (h : s.WF) :
    ∃ r s1, nextVal spare zero s = some (r, s1) ∧ s1.WF ∧ s1.v.len = s.v.len + 1 ∧
      r = s1.v.ptr + s.v.len ∧ s.mem.length ≤ s1.mem.length ∧
      (∀ a, a < s.mem.length → s1.mem[a]? = s.mem[a]?) ∧
      (∀ i, i < s.v.len → s1.mem[s1.v.ptr + i]? = s.mem[s.v.ptr + i]?) := by
  obtain ⟨h1, h2⟩ := h
  by_cases hlt : s.v.len < s.v.cap
  · refine ⟨_, _, nextVal_reuse spare zero s hlt, ⟨?_, ?_⟩, rfl, rfl, le_refl _, ?_, ?_⟩
    · exact hlt
    · exact h2
    · intro a _
      rfl
    · intro i _
      rfl
  · have hle : s.v.ptr + s.v.len ≤ s.mem.length := by omega
    refine ⟨_, _, nextVal_grow spare zero s hlt, ⟨?_, ?_⟩, rfl, rfl, ?_, ?_, ?_⟩
    · show s.v.len + 1 ≤ s.v.len + 1 + spare s.v.cap
      omega
    · show s.mem.length + (s.v.len + 1 + spare s.v.cap) ≤ _
      rw [grow_length s.mem s.v.ptr s.v.len zero zero (spare s.v.cap) hle]
    · show s.mem.length ≤ _
      rw [grow_length s.mem s.v.ptr s.v.len zero zero (spare s.v.cap) hle]
      omega
    · intro a ha
      exact grow_get_old s.mem _ a ha
    · intro i hi
      exact grow_get_lt s.mem s.v.ptr s.v.len zero _ hle i hi

/-- Reading element `i` after a store of `x` at address `a`. -/
theorem elemAt_set {T : Type} (s : ValState T) (a : Nat) (x : T) (i : Nat)
    (ha : a < s.mem.length) :
    ({ s with mem := s.mem.set a x } : ValState T).elemAt i =
      if i < s.v.len ∧ s.v.ptr + i = a then some x else s.elemAt i := by
  unfold ValState.elemAt
  by_cases hi : i < s.v.len
  · by_cases he : s.v.ptr + i = a
    · rw [if_pos hi, if_pos ⟨hi, he⟩, he]
      exact List.getElem?_set_self ha
    · rw [if_pos hi, if_neg (fun hh => he hh.2), if_pos hi]
      exact List.getElem?_set_ne (fun hh => he hh.symm)
  · rw [if_neg hi, if_neg (fun hh => hi hh.1), if_neg hi]

/-! ### Runs of client steps -/

theorem execVal_append {T : Type} (spare : Nat → Nat) (zero : T) (a b : List (Op T)) :
    ∀ st, execVal spare zero (a ++ b) st = (execVal spare zero a st).bind (execVal spare zero b) := by
  induction a with
  | nil =>
    intro st
    rfl
  | cons o a ih =>
    intro st
    cases o with
    | call =>
      simp only [List.cons_append, execVal]
      cases nextVal spare zero st.2 with
      | none => rfl
      | some q => exact ih _
    | write k x =>
      simp only [List.cons_append, execVal]
      by_cases hk : k = 0
      · simp only [if_pos hk, Option.bind]
      · simp only [if_neg hk]
        cases st.1[k - 1]? with
        | none => rfl
        | some r =>
          simp only
          by_cases hr : r < st.2.mem.length
          · simp only [if_pos hr]
            exact ih _
          · simp only [if_neg hr, Option.bind]

theorem execPtr_append {T : Type} (spare : Nat → Nat) (zs : Bool) (zero : T) (a b : List (Op T)) :
    ∀ st, execPtr spare zs zero (a ++ b) st = (execPtr spare zs zero a st).bind (execPtr spare zs zero b) := by
  induction a with
  | nil =>
    intro st
    rfl
  | cons o a ih =>
    intro st
    cases o with
    | call =>
      simp only [List.cons_append, execPtr]
      cases nextPtr spare zs zero st.2 with
      | none => rfl
      | some q => exact ih _
    | write k x =>
      simp only [List.cons_append, execPtr]
      by_cases hk : k = 0
      · simp only [if_pos hk, Option.bind]
      · simp only [if_neg hk]
        cases st.1[k - 1]? with
        | none => rfl
        | some r =>
          cases r with
          | none => rfl
          | some p =>
            simp only
            by_cases hr : p < st.2.objs.length
            · simp only [if_pos hr]
              exact ih _
            · simp only [if_neg hr, Option.bind]

theorem calls_succ (T : Type) (n : Nat) : calls T (n + 1) = calls T n ++ [Op.call] := by
  unfold calls
  rw [List.replicate_succ']

/-- Running `n` invocations of the value variant from a well-formed state: the run returns
`n` more references, the length grows by `n`, old cells and old elements are kept, and every
returned reference is an allocated address. -/
theorem execVal_calls {T : Type} (spare : Nat → Nat) (zero : T) :
    ∀ (n : Nat) (refs : List Nat) (s : ValState T), s.WF →
      ∃ rs s1, execVal spare zero (calls T n) (refs, s) = some (refs ++ rs, s1) ∧
        rs.length = n ∧ s1.WF ∧ s1.v.len = s.v.len + n ∧
        s.mem.length ≤ s1.mem.length ∧
        (∀ a, a < s.mem.length → s1.mem[a]? = s.mem[a]?) ∧
        (∀ i, i < s.v.len → s1.elemAt i = s.elemAt i) := by
  intro n
  induction n with
  | zero =>
    intro refs s h
    refine ⟨[], s, ?_, rfl, h, rfl, le_refl _, fun _ _ => rfl, fun _ _ => rfl⟩
    simp [calls, execVal]
  | succ n ih =>
    intro refs s h
    obtain ⟨rs, s1, he, hl, hw, hlen, hm, hold, hel⟩ := ih refs s h
    obtain ⟨r, s2, hn, hw2, hlen2, _, hm2, hold2, hel2⟩ := nextVal_step spare zero s1 hw
    refine ⟨rs ++ [r], s2, ?_, ?_, hw2, ?_, ?_, ?_, ?_⟩
    · rw [calls_succ, execVal_append, he]
      simp only [Option.bind, execVal, hn, List.append_assoc]
    · rw [List.length_append, hl]
      rfl
    · omega
    · omega
    · intro a ha
      rw [hold2 a (by omega), hold a ha]
    · intro i hi
      rw [← hel i hi]
      unfold ValState.elemAt
      rw [if_pos (by omega), if_pos (by omega)]
      exact hel2 i (by omega)

/-! ### One invocation, pointer variant -/

theorem validCell_mono (n m : Nat) (h : n ≤ m) (c : Option Nat) (hc : validCell n c = true) :
    validCell m c = true := by
  cases c with
  | none => rfl
  | some p =>
    simp only [validCell, decide_eq_true_eq] at hc ⊢
    omega

/-- A non-nil pointer read from the memory of a well-formed state is an allocated object. -/
theorem valid_of_get {T : Type} (s : PtrState T) (h : s.WF) (a p : Nat)
    (hc : s.mem[a]? = some (some p)) : p < s.objs.length := by
  have hm : some p ∈ s.mem := List.getElem?_mem hc
  have := h.2.2 (some p) hm
  simpa [validCell] using this

/-- Summary of one invocation of the pointer variant on a well-formed state: it returns a
valid reference `some p`, the state stays well formed, the length grows by one, the new last
element is the pointer `p` to an allocated object, old objects and old elements are kept, and
the absence of aliasing in the backing array is kept. -/
theorem nextPtr_step {T : Type} (spare : Nat → Nat) (zs : Bool) (zero : T) (s : PtrState T) (h : s.WF) :
    ∃ p s1, nextPtr spare zs zero s = some (some p, s1) ∧ s1.WF ∧ s1.v.len = s.v.len + 1 ∧
      s1.mem[s1.v.ptr + s.v.len]? = some (some p) ∧ p < s1.objs.length ∧
      s.objs.length ≤ s1.objs.length ∧
      (∀ q, q < s.objs.length → s1.objs[q]? = s.objs[q]?) ∧
      (∀ i, i < s.v.len → s1.mem[s1.v.ptr + i]? = s.mem[s.v.ptr + i]?) ∧
      (zs = false → s.NoAlias → s1.NoAlias) := by
  obtain ⟨h1, h2, h3⟩ := h
  by_cases hlt : s.v.len < s.v.cap
  · have ha : s.v.ptr + s.v.len < s.mem.length := by omega
    obtain ⟨c, hc⟩ : ∃ c, s.mem[s.v.ptr + s.v.len]? = some c :=
      ⟨_, List.getElem?_eq_getElem ha⟩
    cases c with
    | none =>
      have hc2 : s.mem[s.v.ptr + s.v.len]? = some none := hc
      refine ⟨_, _, nextPtr_reuse_nil spare zs zero s hlt hc2, ⟨hlt, ?_, ?_⟩, rfl, ?_, ?_, ?_, ?_,
        ?_, ?_⟩
      · show s.v.ptr + s.v.cap ≤ (s.mem.set _ _).length
        rw [List.length_set]
        exact h2
      · intro c hcm
        show validCell (reflectNew zs zero s.objs).2.length c = true
        rcases List.mem_or_eq_of_mem_set hcm with hm | rfl
        · exact validCell_mono _ _ (reflectNew_old zs zero s.objs).1 c (h3 c hm)
        · simpa [validCell] using reflectNew_lt zs zero s.objs
      · exact List.getElem?_set_self ha
      · exact reflectNew_lt zs zero s.objs
      · exact (reflectNew_old zs zero s.objs).1
      · exact (reflectNew_old zs zero s.objs).2
      · intro i hi
        show (s.mem.set (s.v.ptr + s.v.len) (some (reflectNew zs zero s.objs).1))[s.v.ptr + i]? = _
        exact List.getElem?_set_ne (by omega)
      · intro hzs hna i hi j hj ⟨hij, heq⟩
        show (s.mem.set (s.v.ptr + s.v.len) (some (reflectNew zs zero s.objs).1))[s.v.ptr + i]? = some none
        have heq2 : (s.mem.set (s.v.ptr + s.v.len) (some (reflectNew zs zero s.objs).1))[s.v.ptr + i]? =
            (s.mem.set (s.v.ptr + s.v.len) (some (reflectNew zs zero s.objs).1))[s.v.ptr + j]? := heq
        have hbad : ∀ k, s.mem[s.v.ptr + k]? ≠ some (some (reflectNew zs zero s.objs).1) := by
          intro k hk
          have := valid_of_get s ⟨h1, h2, h3⟩ _ _ hk
          rw [hzs, reflectNew_false] at this
          exact absurd this (lt_irrefl _)
        by_cases e1 : i = s.v.len
        · subst e1
          rw [List.getElem?_set_self ha, List.getElem?_set_ne (by omega)] at heq2
          exact absurd heq2.symm (hbad j)
        · by_cases e2 : j = s.v.len
          · subst e2
            rw [List.getElem?_set_self ha, List.getElem?_set_ne (by omega)] at heq2
            exact absurd heq2 (hbad i)
          · rw [List.getElem?_set_ne (by omega)] at heq2 ⊢
            rw [List.getElem?_set_ne (by omega)] at heq2
            exact hna i hi j hj ⟨hij, heq2⟩
    | some p =>
      have hc2 : s.mem[s.v.ptr + s.v.len]? = some (some p) := hc
      refine ⟨_, _, nextPtr_reuse_some spare zs zero s hlt p hc2, ⟨hlt, h2, h3⟩, rfl, hc2,
        valid_of_get s ⟨h1, h2, h3⟩ _ _ hc2, le_refl _, fun _ _ => rfl, fun _ _ => rfl, ?_⟩
      intro _ hna
      exact hna
  · have hle : s.v.ptr + s.v.len ≤ s.mem.length := by omega
    have heqc : s.v.len = s.v.cap := by omega
    refine ⟨_, _, nextPtr_grow spare zs zero s hlt, ⟨?_, ?_, ?_⟩, rfl, ?_, ?_, ?_, ?_, ?_, ?_⟩
    · show s.v.len + 1 ≤ s.v.len + 1 + spare s.v.cap
      omega
    · show s.mem.length + (s.v.len + 1 + spare s.v.cap) ≤ _
      rw [grow_length s.mem s.v.ptr s.v.len _ none (spare s.v.cap) hle]
    · intro c hcm
      show validCell (reflectNew zs zero s.objs).2.length c = true
      have hcm2 : c ∈ s.mem ++ ((s.mem.drop s.v.ptr).take s.v.len ++
          some (reflectNew zs zero s.objs).1 :: List.replicate (spare s.v.cap) none) := hcm
      rw [List.mem_append, List.mem_append, List.mem_cons] at hcm2
      rcases hcm2 with hm | hm | rfl | hm
      · exact validCell_mono _ _ (reflectNew_old zs zero s.objs).1 c (h3 c hm)
      · exact validCell_mono _ _ (reflectNew_old zs zero s.objs).1 c
          (h3 c (List.mem_of_mem_drop (List.mem_of_mem_take hm)))
      · simpa [validCell] using reflectNew_lt zs zero s.objs
      · rw [List.eq_of_mem_replicate hm]
        rfl
    · exact grow_get_eq s.mem s.v.ptr s.v.len _ _ hle
    · exact reflectNew_lt zs zero s.objs
    · exact (reflectNew_old zs zero s.objs).1
    · exact (reflectNew_old zs zero s.objs).2
    · intro i hi
      exact grow_get_lt s.mem s.v.ptr s.v.len _ _ hle i hi
    · intro hzs hna i hi j hj ⟨hij, heq⟩
      have hi2 : i < s.v.len + 1 + spare s.v.cap := hi
      have hj2 : j < s.v.len + 1 + spare s.v.cap := hj
      have hbad : ∀ k, s.mem[s.v.ptr + k]? ≠ some (some (reflectNew zs zero s.objs).1) := by
        intro k hk
        have := valid_of_get s ⟨h1, h2, h3⟩ _ _ hk
        rw [hzs, reflectNew_false] at this
        exact absurd this (lt_irrefl _)
      have key : ∀ k, k < s.v.len + 1 + spare s.v.cap →
          (s.mem ++ ((s.mem.drop s.v.ptr).take s.v.len ++
            some (reflectNew zs zero s.objs).1 :: List.replicate (spare s.v.cap) none))[s.mem.length + k]? =
          if k < s.v.len then s.mem[s.v.ptr + k]?
          else if k = s.v.len then some (some (reflectNew zs zero s.objs).1) else some none := by
        intro k hk
        by_cases c1 : k < s.v.len
        · rw [if_pos c1]
          exact grow_get_lt s.mem s.v.ptr s.v.len _ _ hle k c1
        · rw [if_neg c1]
          by_cases c2 : k = s.v.len
          · rw [if_pos c2, c2]
            exact grow_get_eq s.mem s.v.ptr s.v.len _ _ hle
          · rw [if_neg c2]
            exact grow_get_gt s.mem s.v.ptr s.v.len _ none _ hle k (by omega) hk
      have heq2 := heq
      show (s.mem ++ ((s.mem.drop s.v.ptr).take s.v.len ++
            some (reflectNew zs zero s.objs).1 :: List.replicate (spare s.v.cap) none))[s.mem.length + i]? =
          some none
      change (s.mem ++ ((s.mem.drop s.v.ptr).take s.v.len ++
            some (reflectNew zs zero s.objs).1 :: List.replicate (spare s.v.cap) none))[s.mem.length + i]? =
          (s.mem ++ ((s.mem.drop s.v.ptr).take s.v.len ++
            some (reflectNew zs zero s.objs).1 :: List.replicate (spare s.v.cap) none))[s.mem.length + j]?
        at heq2
      rw [key i hi2, key j hj2] at heq2
      rw [key i hi2]
      by_cases c1 : i < s.v.len
      · rw [if_pos c1] at heq2 ⊢
        by_cases d1 : j < s.v.len
        · rw [if_pos d1] at heq2
          exact hna i (by omega) j (by omega) ⟨hij, heq2⟩
        · rw [if_neg d1] at heq2
          by_cases d2 : j = s.v.len
          · rw [if_pos d2] at heq2
            exact absurd heq2 (hbad i)
          · rw [if_neg d2] at heq2
            exact heq2
      · rw [if_neg c1] at heq2 ⊢
        by_cases c2 : i = s.v.len
        · rw [if_pos c2] at heq2
          by_cases d1 : j < s.v.len
          · rw [if_pos d1] at heq2
            exact absurd heq2.symm (hbad j)
          · rw [if_neg d1, if_neg (by omega)] at heq2
            exact absurd heq2 (by simp)
        · rw [if_neg c2]

/-! ### Reading through pointers -/

/-- Element `i` points to the same object content in `s1` as in `s` when its cell and the old
objects are kept. -/
theorem derefAt_congr {T : Type} (s s1 : PtrState T) (hs : s.WF) (i : Nat) (hi : i < s.v.len)
    (hlen : s.v.len ≤ s1.v.len)
    (hcell : s1.mem[s1.v.ptr + i]? = s.mem[s.v.ptr + i]?)
    (hobj : ∀ q, q < s.objs.length → s1.objs[q]? = s.objs[q]?) :
    s1.derefAt i = s.derefAt i := by
  unfold PtrState.derefAt PtrState.elemAt
  rw [if_pos hi, if_pos (by omega), hcell]
  cases hc : s.mem[s.v.ptr + i]? with
  | none => rfl
  | some c =>
    cases c with
    | none => rfl
    | some q => exact hobj q (valid_of_get s hs _ _ hc)

/-- Reading `*v[i]` after a store of `x` in the object at `p`. -/
theorem derefAt_set {T : Type} (s : PtrState T) (p : Nat) (x : T) (hp : p < s.objs.length)
    (i : Nat) :
    ({ s with objs := s.objs.set p x } : PtrState T).derefAt i =
      if s.elemAt i = some (some p) then some x else s.derefAt i := by
  unfold PtrState.derefAt
  have e : ({ s with objs := s.objs.set p x } : PtrState T).elemAt i = s.elemAt i := rfl
  rw [e]
  cases hc : s.elemAt i with
  | none => simp
  | some c =>
    cases c with
    | none => simp
    | some q =>
      by_cases hq : q = p
      · subst hq
        simp only [if_true]
        exact List.getElem?_set_self hp
      · have hne : ¬ (some (some q) = some (some p)) := by
          intro hh
          exact hq (Option.some.inj (Option.some.inj hh))
        simp only [if_neg hne]
        exact List.getElem?_set_ne (fun hh => hq hh.symm)

/-- Running `n` invocations of the pointer variant from a well-formed state: the run returns
`n` more references, the length grows by `n`, old objects and old elements are kept. -/
theorem execPtr_calls {T : Type} (spare : Nat → Nat) (zs : Bool) (zero : T) :
    ∀ (n : Nat) (refs : List (Option Nat)) (s : PtrState T), s.WF →
      ∃ rs s1, execPtr spare zs zero (calls T n) (refs, s) = some (refs ++ rs, s1) ∧
        rs.length = n ∧ s1.WF ∧ s1.v.len = s.v.len + n ∧
        s.objs.length ≤ s1.objs.length ∧
        (∀ q, q < s.objs.length → s1.objs[q]? = s.objs[q]?) ∧
        (∀ i, i < s.v.len → s1.elemAt i = s.elemAt i) := by
  intro n
  induction n with
  | zero =>
    intro refs s h
    refine ⟨[], s, ?_, rfl, h, rfl, le_refl _, fun _ _ => rfl, fun _ _ => rfl⟩
    simp [calls, execPtr]
  | succ n ih =>
    intro refs s h
    obtain ⟨rs, s1, he, hl, hw, hlen, hm, hold, hel⟩ := ih refs s h
    obtain ⟨p, s2, hn, hw2, hlen2, _, _, hm2, hold2, hel2, _⟩ := nextPtr_step spare zs zero s1 hw
    refine ⟨rs ++ [some p], s2, ?_, ?_, hw2, ?_, ?_, ?_, ?_⟩
    · rw [calls_succ, execPtr_append, he]
      simp only [Option.bind, execPtr, hn, List.append_assoc]
    · rw [List.length_append, hl]
      rfl
    · omega
    · omega
    · intro q hq
      rw [hold2 q (by omega), hold q hq]
    · intro i hi
      rw [← hel i hi]
      unfold PtrState.elemAt
      rw [if_pos (by omega), if_pos (by omega)]
      exact hel2 i (by omega)

/-- After `n` invocations of the pointer variant, every old element still points to the same
object content. -/
theorem execPtr_calls_deref {T : Type} (spare : Nat → Nat) (zs : Bool) (zero : T)
    (n : Nat) (refs : List (Option Nat)) (s : PtrState T) (h : s.WF) :
    ∃ rs s1, execPtr spare zs zero (calls T n) (refs, s) = some (refs ++ rs, s1) ∧
      rs.length = n ∧ s1.WF ∧ s1.v.len = s.v.len + n ∧
      (∀ i, i < s.v.len → s1.derefAt i = s.derefAt i) := by
  obtain ⟨rs, s1, he, hl, hw, hlen, _, hold, hel⟩ := execPtr_calls spare zs zero n refs s h
  refine ⟨rs, s1, he, hl, hw, hlen, ?_⟩
  intro i hi
  have hc := hel i hi
  unfold PtrState.elemAt at hc
  rw [if_pos (by omega), if_pos hi] at hc
  exact derefAt_congr s s1 h i hi (by omega) hc hold

/-! ### The client that writes each reference at once -/

/-- Filling through the value variant: the run returns, and the written values are the new
elements, in order; the old elements are kept. -/
theorem fillVal {T : Type} (spare : Nat → Nat) (zero : T) :
    ∀ (xs : List T) (k0 : Nat) (refs : List Nat) (s : ValState T), s.WF → refs.length = k0 →
      ∃ refs1 s1, execVal spare zero (fillOps k0 xs) (refs, s) = some (refs1, s1) ∧
        s1.WF ∧ s1.v.len = s.v.len + xs.length ∧
        (∀ i, i < s.v.len → s1.elemAt i = s.elemAt i) ∧
        (∀ j, j < xs.length → s1.elemAt (s.v.len + j) = xs[j]?) := by
  intro xs
  induction xs with
  | nil =>
    intro k0 refs s h _
    refine ⟨refs, s, rfl, h, rfl, fun _ _ => rfl, ?_⟩
    intro j hj
    exact absurd hj (Nat.not_lt_zero _)
  | cons x xs ih =>
    intro k0 refs s h hk
    obtain ⟨r, s1, hn, hw1, hlen1, hr, hm1, _, hel1⟩ := nextVal_step spare zero s h
    have hrlt : r < s1.mem.length := by
      have := hw1.1
      have := hw1.2
      omega
    have hw2 : ({ s1 with mem := s1.mem.set r x } : ValState T).WF := by
      refine ⟨hw1.1, ?_⟩
      show s1.v.ptr + s1.v.cap ≤ (s1.mem.set r x).length
      rw [List.length_set]
      exact hw1.2
    obtain ⟨refs2, s2, he2, hw3, hlen3, hold3, hnew3⟩ :=
      ih (k0 + 1) (refs ++ [r]) { s1 with mem := s1.mem.set r x } hw2
        (by rw [List.length_append, hk]; rfl)
    have hlen3b : s2.v.len = s1.v.len + xs.length := hlen3
    have hget : (refs ++ [r])[k0 + 1 - 1]? = some r := by
      have e : k0 + 1 - 1 = refs.length := by omega
      rw [e, List.getElem?_append_right (le_refl _)]
      simp
    refine ⟨refs2, s2, ?_, hw3, ?_, ?_, ?_⟩
    · simp only [fillOps, execVal, hn, if_neg (Nat.succ_ne_zero k0), hget, if_pos hrlt]
      exact he2
    · rw [hlen3b, hlen1, List.length_cons]
      omega
    · intro i hi
      have h1 := hold3 i (by show i < s1.v.len; omega)
      rw [h1, elemAt_set s1 r x i hrlt, if_neg (by omega)]
      unfold ValState.elemAt
      rw [if_pos (by omega), if_pos hi]
      exact hel1 i hi
    · intro j hj
      cases j with
      | zero =>
        have h1 := hold3 s.v.len (by show s.v.len < s1.v.len; omega)
        rw [Nat.add_zero, h1, elemAt_set s1 r x s.v.len hrlt, if_pos ⟨by omega, hr.symm⟩]
        simp
      | succ j =>
        have h1 := hnew3 j (by simpa using hj)
        have e : s.v.len + (j + 1) = s1.v.len + j := by omega
        rw [e]
        simpa using h1

/-- Filling through the pointer variant of a type of nonzero size when no two cells of the
backing array hold the same non-nil pointer: the run returns, the written values are the contents of the objects the new
elements point to, in order; the objects of the old elements are kept. -/
theorem fillPtr {T : Type} (spare : Nat → Nat) (zs : Bool) (zero : T) (hzs : zs = false) :
    ∀ (xs : List T) (k0 : Nat) (refs : List (Option Nat)) (s : PtrState T),
      s.WF → s.NoAlias → refs.length = k0 →
      ∃ refs1 s1, execPtr spare zs zero (fillOps k0 xs) (refs, s) = some (refs1, s1) ∧
        s1.WF ∧ s1.v.len = s.v.len + xs.length ∧
        (∀ i, i < s.v.len → s1.derefAt i = s.derefAt i) ∧
        (∀ j, j < xs.length → s1.derefAt (s.v.len + j) = xs[j]?) := by
  intro xs
  induction xs with
  | nil =>
    intro k0 refs s h _ _
    refine ⟨refs, s, rfl, h, rfl, fun _ _ => rfl, ?_⟩
    intro j hj
    exact absurd hj (Nat.not_lt_zero _)
  | cons x xs ih =>
    intro k0 refs s h hna hk
    obtain ⟨p, s1, hn, hw1, hlen1, hcell, hp, _, hobj, hel1, hna1⟩ := nextPtr_step spare zs zero s h
    have hna1 := hna1 hzs hna
    have hw2 : ({ s1 with objs := s1.objs.set p x } : PtrState T).WF := by
      refine ⟨hw1.1, hw1.2.1, ?_⟩
      intro c hc
      show validCell (s1.objs.set p x).length c = true
      rw [List.length_set]
      exact hw1.2.2 c hc
    have hna2 : ({ s1 with objs := s1.objs.set p x } : PtrState T).NoAlias := hna1
    obtain ⟨refs2, s2, he2, hw3, hlen3, hold3, hnew3⟩ :=
      ih (k0 + 1) (refs ++ [some p]) { s1 with objs := s1.objs.set p x } hw2 hna2
        (by rw [List.length_append, hk]; rfl)
    have hlen3b : s2.v.len = s1.v.len + xs.length := hlen3
    have hget : (refs ++ [some p])[k0 + 1 - 1]? = some (some p) := by
      have e : k0 + 1 - 1 = refs.length := by omega
      rw [e, List.getElem?_append_right (le_refl _)]
      simp
    have hlast : s1.elemAt s.v.len = some (some p) := by
      unfold PtrState.elemAt
      rw [if_pos (by omega)]
      exact hcell
    refine ⟨refs2, s2, ?_, hw3, ?_, ?_, ?_⟩
    · simp only [fillOps, execPtr, hn, if_neg (Nat.succ_ne_zero k0), hget, if_pos hp]
      exact he2
    · rw [hlen3b, hlen1, List.length_cons]
      omega
    · intro i hi
      have h1 := hold3 i (by show i < s1.v.len; omega)
      have hne : ¬ (s1.elemAt i = some (some p)) := by
        intro hh
        unfold PtrState.elemAt at hh
        rw [if_pos (by omega)] at hh
        have hcap := hw1.1
        have := hna1 i (by omega) s.v.len (by omega) ⟨by omega, by rw [hh, hcell]⟩
        rw [hh] at this
        exact Option.noConfusion (Option.some.inj this)
      rw [h1, derefAt_set s1 p x hp i, if_neg hne]
      exact derefAt_congr s s1 h i hi (by omega) (hel1 i hi) hobj
    · intro j hj
      cases j with
      | zero =>
        have h1 := hold3 s.v.len (by show s.v.len < s1.v.len; omega)
        rw [Nat.add_zero, h1, derefAt_set s1 p x hp s.v.len, if_pos hlast]
        simp
      | succ j =>
        have h1 := hnew3 j (by simpa using hj)
        have e : s.v.len + (j + 1) = s1.v.len + j := by omega
        rw [e]
        simpa using h1

/-- An element that holds a pointer to an allocated object can be read through. -/
theorem derefAt_defined {T : Type} (s : PtrState T) (i p : Nat)
    (hc : s.elemAt i = some (some p)) (hp : p < s.objs.length) :
    s.derefAt i = some (s.objs.get ⟨p, hp⟩) := by
  unfold PtrState.derefAt
  rw [hc]
  exact List.getElem?_eq_getElem hp

/-- Filling through the pointer variant of a type with a single value (a type of size zero):
the run returns and every new element points to an object, whose content is then the written
value; the objects of the old elements are kept. -/
theorem fillPtr_single {T : Type} (spare : Nat → Nat) (zs : Bool) (zero : T)
    (hs : ∀ x : T, x = zero) :
    ∀ (xs : List T) (k0 : Nat) (refs : List (Option Nat)) (s : PtrState T),
      s.WF → refs.length = k0 →
      ∃ refs1 s1, execPtr spare zs zero (fillOps k0 xs) (refs, s) = some (refs1, s1) ∧
        s1.WF ∧ s1.v.len = s.v.len + xs.length ∧
        (∀ i, i < s.v.len → s1.derefAt i = s.derefAt i) ∧
        (∀ j, j < xs.length → s1.derefAt (s.v.len + j) = xs[j]?) := by
  have hall : ∀ x y : T, x = y := fun x y => (hs x).trans (hs y).symm
  intro xs
  induction xs with
  | nil =>
    intro k0 refs s h _
    refine ⟨refs, s, rfl, h, rfl, fun _ _ => rfl, ?_⟩
    intro j hj
    exact absurd hj (Nat.not_lt_zero _)
  | cons x xs ih =>
    intro k0 refs s h hk
    obtain ⟨p, s1, hn, hw1, hlen1, hcell, hp, _, hobj, hel1, _⟩ :=
      nextPtr_step spare zs zero s h
    have hw2 : ({ s1 with objs := s1.objs.set p x } : PtrState T).WF := by
      refine ⟨hw1.1, hw1.2.1, ?_⟩
      intro c hc
      show validCell (s1.objs.set p x).length c = true
      rw [List.length_set]
      exact hw1.2.2 c hc
    obtain ⟨refs2, s2, he2, hw3, hlen3, hold3, hnew3⟩ :=
      ih (k0 + 1) (refs ++ [some p]) { s1 with objs := s1.objs.set p x } hw2
        (by rw [List.length_append, hk]; rfl)
    have hlen3b : s2.v.len = s1.v.len + xs.length := hlen3
    have hget : (refs ++ [some p])[k0 + 1 - 1]? = some (some p) := by
      have e : k0 + 1 - 1 = refs.length := by omega
      rw [e, List.getElem?_append_right (le_refl _)]
      simp
    have hlast : s1.elemAt s.v.len = some (some p) := by
      unfold PtrState.elemAt
      rw [if_pos (by omega)]
      exact hcell
    have hwrite : ∀ i, ({ s1 with objs := s1.objs.set p x } : PtrState T).derefAt i =
        s1.derefAt i := by
      intro i
      rw [derefAt_set s1 p x hp i]
      by_cases hc : s1.elemAt i = some (some p)
      · rw [if_pos hc, derefAt_defined s1 i p hc hp, hall x (s1.objs.get ⟨p, hp⟩)]
      · rw [if_neg hc]
    refine ⟨refs2, s2, ?_, hw3, ?_, ?_, ?_⟩
    · simp only [fillOps, execPtr, hn, if_neg (Nat.succ_ne_zero k0), hget, if_pos hp]
      exact he2
    · rw [hlen3b, hlen1, List.length_cons]
      omega
    · intro i hi
      have h1 := hold3 i (by show i < s1.v.len; omega)
      rw [h1, hwrite i]
      exact derefAt_congr s s1 h i hi (by omega) (hel1 i hi) hobj
    · intro j hj
      cases j with
      | zero =>
        have h1 := hold3 s.v.len (by show s.v.len < s1.v.len; omega)
        rw [Nat.add_zero, h1, derefAt_set s1 p x hp s.v.len, if_pos hlast]
        simp
      | succ j =>
        have h1 := hnew3 j (by simpa using hj)
        have e : s.v.len + (j + 1) = s1.v.len + j := by omega
        rw [e]
        simpa using h1

/-! ### Claims on `MakeSliceNextElemFunc` -/

/-- C4: for either variant of the function returned by `MakeSliceNextElemFunc` and every
well-formed slice state (length `L` at most the capacity `C`), one invocation returns and
leaves the slice with length `L + 1`; hence `N` invocations in sequence on a slice of
length 0, of any capacity, leave it with length `N`. -/
theorem next_len_succ {T : Type} (spare : Nat → Nat) (zs : Bool) (zero : T) :
    (∀ sv : SliceVar T, sv.WF → sv.len ≤ sv.cap ∧
      ∃ r sv1, MakeSliceNextElemFunc spare zs zero sv = some (r, sv1) ∧ sv1.len = sv.len + 1) ∧
    (∀ s : ValState T, s.WF →
      ∃ r s1, nextVal spare zero s = some (r, s1) ∧ s1.v.len = s.v.len + 1) ∧
    (∀ s : PtrState T, s.WF →
      ∃ r s1, nextPtr spare zs zero s = some (r, s1) ∧ s1.v.len = s.v.len + 1) ∧
    (∀ (N : Nat) (s : ValState T), s.WF → s.v.len = 0 →
      ∃ refs s1, execVal spare zero (calls T N) ([], s) = some (refs, s1) ∧ s1.v.len = N) ∧
    (∀ (N : Nat) (s : PtrState T), s.WF → s.v.len = 0 →
      ∃ refs s1, execPtr spare zs zero (calls T N) ([], s) = some (refs, s1) ∧ s1.v.len = N) := by
  refine ⟨?_, ?_, ?_, ?_, ?_⟩
  · intro sv h
    cases sv with
    | values s =>
      obtain ⟨r, s1, hn, _, hlen, _⟩ := nextVal_step spare zero s h
      refine ⟨h.1, Ref.cell r, SliceVar.values s1, ?_, hlen⟩
      simp only [MakeSliceNextElemFunc, hn]
    | pointers s =>
      obtain ⟨p, s1, hn, _, hlen, _⟩ := nextPtr_step spare zs zero s h
      refine ⟨h.1, Ref.pointee (some p), SliceVar.pointers s1, ?_, hlen⟩
      simp only [MakeSliceNextElemFunc, hn]
  · intro s h
    obtain ⟨r, s1, hn, _, hlen, _⟩ := nextVal_step spare zero s h
    exact ⟨r, s1, hn, hlen⟩
  · intro s h
    obtain ⟨p, s1, hn, _, hlen, _⟩ := nextPtr_step spare zs zero s h
    exact ⟨some p, s1, hn, hlen⟩
  · intro N s h h0
    obtain ⟨rs, s1, he, _, _, hlen, _⟩ := execVal_calls spare zero N [] s h
    exact ⟨[] ++ rs, s1, he, by omega⟩
  · intro N s h h0
    obtain ⟨rs, s1, he, _, _, hlen, _⟩ := execPtr_calls spare zs zero N [] s h
    exact ⟨[] ++ rs, s1, he, by omega⟩

/-- Witness for C4: a value slice of length 1 and capacity 1 (the invocation appends), a
pointer slice of length 0 and capacity 1 with a nil slot, and three invocations on empty
slices of capacity 0 and 1. -/
theorem next_len_succ_witness :
    (∃ r sv1, MakeSliceNextElemFunc (fun c => c - 1) false 0
        (SliceVar.values (⟨[4], ⟨0, 1, 1⟩⟩ : ValState Nat)) = some (r, sv1) ∧
      sv1.len = 1 + 1) ∧
    (∃ r s1, nextVal (fun c => c - 1) 0 (⟨[4], ⟨0, 1, 1⟩⟩ : ValState Nat) = some (r, s1) ∧
      s1.v.len = 1 + 1) ∧
    (∃ r s1, nextPtr (fun c => c - 1) false 0 (⟨[none], [], ⟨0, 0, 1⟩⟩ : PtrState Nat) = some (r, s1) ∧
      s1.v.len = 0 + 1) ∧
    (∃ refs s1, execVal (fun c => c - 1) 0 (calls Nat 3) ([], (⟨[], ⟨0, 0, 0⟩⟩ : ValState Nat)) =
      some (refs, s1) ∧ s1.v.len = 3) ∧
    (∃ refs s1, execPtr (fun c => c - 1) false 0 (calls Nat 3)
      ([], (⟨[none], [], ⟨0, 0, 1⟩⟩ : PtrState Nat)) = some (refs, s1) ∧ s1.v.len = 3) :=
  ⟨((next_len_succ (fun c => c - 1) false 0).1 (SliceVar.values ⟨[4], ⟨0, 1, 1⟩⟩) (by decide)).2,
   (next_len_succ (fun c => c - 1) false 0).2.1 ⟨[4], ⟨0, 1, 1⟩⟩ (by decide),
   (next_len_succ (fun c => c - 1) false 0).2.2.1 ⟨[none], [], ⟨0, 0, 1⟩⟩ (by decide),
   (next_len_succ (fun c => c - 1) false 0).2.2.2.1 3 ⟨[], ⟨0, 0, 0⟩⟩ (by decide) rfl,
   (next_len_succ (fun c => c - 1) false 0).2.2.2.2 3 ⟨[none], [], ⟨0, 0, 1⟩⟩ (by decide) rfl⟩

/-- C6: for both variants started on a well-formed slice of length `L`, the `k`-th invocation
(`k ≥ 1`) returns the slot at index `L + k - 1` of the slice as it is right after that
invocation (value variant: the reference is `Index(L + k - 1)`; pointer variant: it is the
object that element `L + k - 1` points to), which is then the last index. So two different
invocations return slots of different indices, and no index is below `L`. -/
theorem next_slot_index {T : Type} (spare : Nat → Nat) (zs : Bool) (zero : T) :
    (∀ (s : ValState T) (k : Nat), s.WF → 1 ≤ k →
      ∃ refs s1 r, execVal spare zero (calls T k) ([], s) = some (refs, s1) ∧
        refs[k - 1]? = some r ∧ s1.v.index ((s.v.len + k - 1 : Nat) : Int) = some r ∧
        s1.v.len = s.v.len + k) ∧
    (∀ (s : PtrState T) (k : Nat), s.WF → 1 ≤ k →
      ∃ refs s1 p, execPtr spare zs zero (calls T k) ([], s) = some (refs, s1) ∧
        refs[k - 1]? = some (some p) ∧ s1.elemAt (s.v.len + k - 1) = some (some p) ∧
        s1.v.len = s.v.len + k) ∧
    (∀ L k1 k2 : Nat, 1 ≤ k1 → 1 ≤ k2 → k1 ≠ k2 → L + k1 - 1 ≠ L + k2 - 1) ∧
    (∀ L k : Nat, 1 ≤ k → L ≤ L + k - 1) := by
  refine ⟨?_, ?_, ?_, ?_⟩
  · intro s k h hk
    obtain ⟨n, rfl⟩ : ∃ n, k = n + 1 := ⟨k - 1, by omega⟩
    obtain ⟨rs, s1, he, hl, hw, hlen, _⟩ := execVal_calls spare zero n [] s h
    obtain ⟨r, s2, hn, _, hlen2, hr, _⟩ := nextVal_step spare zero s1 hw
    refine ⟨[] ++ rs ++ [r], s2, r, ?_, ?_, ?_, by omega⟩
    · rw [calls_succ, execVal_append, he]
      simp only [Option.bind, execVal, hn]
    · have e : n + 1 - 1 = ([] ++ rs).length := by simp [hl]
      rw [e, List.getElem?_append_right (le_refl _)]
      simp
    · rw [index_nat s2.v (s.v.len + (n + 1) - 1) (by omega), hr]
      congr 2
      omega
  · intro s k h hk
    obtain ⟨n, rfl⟩ : ∃ n, k = n + 1 := ⟨k - 1, by omega⟩
    obtain ⟨rs, s1, he, hl, hw, hlen, _⟩ := execPtr_calls spare zs zero n [] s h
    obtain ⟨p, s2, hn, _, hlen2, hcell, _⟩ := nextPtr_step spare zs zero s1 hw
    refine ⟨[] ++ rs ++ [some p], s2, p, ?_, ?_, ?_, by omega⟩
    · rw [calls_succ, execPtr_append, he]
      simp only [Option.bind, execPtr, hn]
    · have e : n + 1 - 1 = ([] ++ rs).length := by simp [hl]
      rw [e, List.getElem?_append_right (le_refl _)]
      simp
    · unfold PtrState.elemAt
      rw [if_pos (by omega)]
      have e : s.v.len + (n + 1) - 1 = s1.v.len := by omega
      rw [e]
      exact hcell
  · intro L k1 k2 h1 h2 hne
    omega
  · intro L k hk
    omega

/-- Witness for C6: the third invocation on a value slice of length 1 and capacity 2, and on
a pointer slice of length 1 and capacity 2. -/
theorem next_slot_index_witness :
    (∃ refs s1 r, execVal (fun c => c - 1) 0 (calls Nat 3)
        ([], (⟨[4, 6], ⟨0, 1, 2⟩⟩ : ValState Nat)) = some (refs, s1) ∧
      refs[3 - 1]? = some r ∧ s1.v.index ((1 + 3 - 1 : Nat) : Int) = some r ∧
      s1.v.len = 1 + 3) ∧
    (∃ refs s1 p, execPtr (fun c => c - 1) false 0 (calls Nat 3)
        ([], (⟨[some 0, none], [9], ⟨0, 1, 2⟩⟩ : PtrState Nat)) = some (refs, s1) ∧
      refs[3 - 1]? = some (some p) ∧ s1.elemAt (1 + 3 - 1) = some (some p) ∧
      s1.v.len = 1 + 3) ∧
    (1 + 1 - 1 ≠ 1 + 3 - 1) ∧ (1 ≤ 1 + 3 - 1) :=
  ⟨(next_slot_index (fun c => c - 1) false 0).1 ⟨[4, 6], ⟨0, 1, 2⟩⟩ 3 (by decide) (by decide),
   (next_slot_index (fun c => c - 1) false 0).2.1 ⟨[some 0, none], [9], ⟨0, 1, 2⟩⟩ 3 (by decide)
     (by decide),
   (next_slot_index (T := Nat) (fun c => c - 1) false 0).2.2.1 1 1 3 (by decide) (by decide) (by decide),
   (next_slot_index (T := Nat) (fun c => c - 1) false 0).2.2.2 1 3 (by decide)⟩

/-- C7: pointer variant. On a well-formed state with `len < cap` whose slot at index `len`
holds nil, one invocation performs `reflect.New(elemType)`, stores the non-nil pointer it
gives in that slot and returns the reference to the object it points to, which holds the zero
value of `T`. For `T` of nonzero size that object is added to the heap, at an address held by
no cell of the old memory; for `T` of size zero (a type with a single value) the Go runtime
gives the address shared by all objects of size zero. In every case, reuse or growth, the
invocation returns a valid reference and the element at the new last index is the non-nil
pointer to the returned object. -/
theorem nextPtr_never_nil {T : Type} (spare : Nat → Nat) (zs : Bool) (zero : T)
    (hz : zs = true → ∀ x : T, x = zero) :
    (∀ s : PtrState T, s.WF → s.v.len < s.v.cap → s.mem[s.v.ptr + s.v.len]? = some none →
      ∃ p s1, reflectNew zs zero s.objs = (p, s1.objs) ∧
        nextPtr spare zs zero s = some (some p, s1) ∧
        s1.v.len = s.v.len + 1 ∧
        s1.elemAt s.v.len = some (some p) ∧
        s1.elemAt s.v.len ≠ some none ∧
        s1.derefAt s.v.len = some zero ∧
        (zs = false →
          p = s.objs.length ∧ s1.objs = s.objs ++ [zero] ∧ ∀ c ∈ s.mem, c ≠ some p) ∧
        (zs = true → p = 0)) ∧
    (∀ s : PtrState T, s.WF →
      ∃ p s1, nextPtr spare zs zero s = some (some p, s1) ∧ s1.v.len = s.v.len + 1 ∧
        s1.elemAt s.v.len = some (some p) ∧ p < s1.objs.length) := by
  constructor
  · intro s h hlt hc
    have ha : s.v.ptr + s.v.len < s.mem.length := by
      have := h.2.1
      omega
    have hcell : (s.mem.set (s.v.ptr + s.v.len) (some (reflectNew zs zero s.objs).1))[
        s.v.ptr + s.v.len]? = some (some (reflectNew zs zero s.objs).1) :=
      List.getElem?_set_self ha
    refine ⟨_, _, rfl, nextPtr_reuse_nil spare zs zero s hlt hc, rfl, ?_, ?_, ?_, ?_, ?_⟩
    · unfold PtrState.elemAt
      rw [if_pos (Nat.lt_succ_self _)]
      exact hcell
    · unfold PtrState.elemAt
      rw [if_pos (Nat.lt_succ_self _)]
      intro hh
      have h2 := hcell.symm.trans hh
      exact Option.noConfusion (Option.some.inj h2)
    · unfold PtrState.derefAt PtrState.elemAt
      rw [if_pos (Nat.lt_succ_self _)]
      simp only [hcell]
      exact reflectNew_get zs zero s.objs hz
    · intro hzs
      subst hzs
      refine ⟨rfl, rfl, ?_⟩
      intro c hcm hce
      have := h.2.2 c hcm
      rw [hce, reflectNew_false] at this
      simp [validCell] at this
    · intro hzs
      subst hzs
      rfl
  · intro s h
    obtain ⟨p, s1, hn, _, hlen, hcell, hp, _⟩ := nextPtr_step spare zs zero s h
    refine ⟨p, s1, hn, hlen, ?_, hp⟩
    unfold PtrState.elemAt
    rw [if_pos (by omega)]
    exact hcell

/-- Witness for C7: a slice of length 1 and capacity 2 whose spare slot is nil, with elements
of nonzero size and with elements of size zero (type `Unit`), where the new pointer is the
one element 0 already holds; and a full slice of length 1 and capacity 1. -/
theorem nextPtr_never_nil_witness :
    (∃ p s1, reflectNew false 0 [9] = (p, s1.objs) ∧
      nextPtr (fun c => c - 1) false 0 (⟨[some 0, none], [9], ⟨0, 1, 2⟩⟩ : PtrState Nat) =
        some (some p, s1) ∧
      s1.v.len = 1 + 1 ∧ s1.elemAt 1 = some (some p) ∧ s1.elemAt 1 ≠ some none ∧
      s1.derefAt 1 = some 0 ∧
      (false = false → p = [9].length ∧ s1.objs = [9] ++ [0] ∧
        ∀ c ∈ [some 0, none], c ≠ some p) ∧
      (false = true → p = 0)) ∧
    (∃ p s1, reflectNew true () [()] = (p, s1.objs) ∧
      nextPtr (fun c => c - 1) true () (⟨[some 0, none], [()], ⟨0, 1, 2⟩⟩ : PtrState Unit) =
        some (some p, s1) ∧
      s1.v.len = 1 + 1 ∧ s1.elemAt 1 = some (some p) ∧ s1.elemAt 1 ≠ some none ∧
      s1.derefAt 1 = some () ∧
      (true = false → p = [()].length ∧ s1.objs = [()] ++ [()] ∧
        ∀ c ∈ [some 0, none], c ≠ some p) ∧
      (true = true → p = 0)) ∧
    (∃ p s1, nextPtr (fun c => c - 1) false 0 (⟨[some 0], [9], ⟨0, 1, 1⟩⟩ : PtrState Nat) =
        some (some p, s1) ∧
      s1.v.len = 1 + 1 ∧ s1.elemAt 1 = some (some p) ∧ p < s1.objs.length) :=
  ⟨(nextPtr_never_nil (fun c => c - 1) false 0 (fun h => absurd h (by decide))).1
      ⟨[some 0, none], [9], ⟨0, 1, 2⟩⟩ (by decide) (by decide) rfl,
   (nextPtr_never_nil (fun c => c - 1) true () (fun _ _ => rfl)).1
      ⟨[some 0, none], [()], ⟨0, 1, 2⟩⟩ (by decide) (by decide) rfl,
   (nextPtr_never_nil (fun c => c - 1) false 0 (fun h => absurd h (by decide))).2
      ⟨[some 0], [9], ⟨0, 1, 1⟩⟩ (by decide)⟩

/-- C10: for both variants, an invocation on a well-formed state with `len < cap` reuses the
spare capacity: the header keeps its address and its capacity and only the length becomes
`len + 1`; no cell is allocated (value variant: memory is unchanged; pointer variant: no cell
other than the reused slot changes). Conversely an invocation that changes the address or the
capacity of the slice, or the size of memory, started with `len = cap`. -/
theorem next_reuses_spare {T : Type} (spare : Nat → Nat) (zs : Bool) (zero : T) :
    (∀ s : ValState T, s.WF → s.v.len < s.v.cap →
      ∃ r s1, nextVal spare zero s = some (r, s1) ∧
        s1.v = { ptr := s.v.ptr, len := s.v.len + 1, cap := s.v.cap } ∧ s1.mem = s.mem) ∧
    (∀ s : PtrState T, s.WF → s.v.len < s.v.cap →
      ∃ r s1, nextPtr spare zs zero s = some (r, s1) ∧
        s1.v = { ptr := s.v.ptr, len := s.v.len + 1, cap := s.v.cap } ∧
        s1.mem.length = s.mem.length ∧
        (∀ a, a ≠ s.v.ptr + s.v.len → s1.mem[a]? = s.mem[a]?)) ∧
    (∀ (s : ValState T) (r : Nat) (s1 : ValState T), s.WF → nextVal spare zero s = some (r, s1) →
      s1.v.ptr ≠ s.v.ptr ∨ s1.v.cap ≠ s.v.cap ∨ s1.mem.length ≠ s.mem.length →
      s.v.len = s.v.cap) ∧
    (∀ (s : PtrState T) (r : Option Nat) (s1 : PtrState T), s.WF →
      nextPtr spare zs zero s = some (r, s1) →
      s1.v.ptr ≠ s.v.ptr ∨ s1.v.cap ≠ s.v.cap ∨ s1.mem.length ≠ s.mem.length →
      s.v.len = s.v.cap) := by
  have hval : ∀ s : ValState T, s.WF → s.v.len < s.v.cap →
      ∃ r s1, nextVal spare zero s = some (r, s1) ∧
        s1.v = { ptr := s.v.ptr, len := s.v.len + 1, cap := s.v.cap } ∧ s1.mem = s.mem := by
    intro s _ hlt
    exact ⟨_, _, nextVal_reuse spare zero s hlt, rfl, rfl⟩
  have hptr : ∀ s : PtrState T, s.WF → s.v.len < s.v.cap →
      ∃ r s1, nextPtr spare zs zero s = some (r, s1) ∧
        s1.v = { ptr := s.v.ptr, len := s.v.len + 1, cap := s.v.cap } ∧
        s1.mem.length = s.mem.length ∧
        (∀ a, a ≠ s.v.ptr + s.v.len → s1.mem[a]? = s.mem[a]?) := by
    intro s h hlt
    have ha : s.v.ptr + s.v.len < s.mem.length := by
      have := h.2.1
      omega
    obtain ⟨c, hc⟩ : ∃ c, s.mem[s.v.ptr + s.v.len]? = some c :=
      ⟨_, List.getElem?_eq_getElem ha⟩
    cases c with
    | none =>
      have hc2 : s.mem[s.v.ptr + s.v.len]? = some none := hc
      refine ⟨_, _, nextPtr_reuse_nil spare zs zero s hlt hc2, rfl, ?_, ?_⟩
      · exact List.length_set _ _ _
      · intro a hne
        exact List.getElem?_set_ne (fun hh => hne hh.symm)
    | some p =>
      have hc2 : s.mem[s.v.ptr + s.v.len]? = some (some p) := hc
      exact ⟨_, _, nextPtr_reuse_some spare zs zero s hlt p hc2, rfl, rfl, fun _ _ => rfl⟩
  refine ⟨hval, hptr, ?_, ?_⟩
  · intro s r s1 h hn hch
    by_contra hne
    have hlt : s.v.len < s.v.cap := by
      have := h.1
      omega
    obtain ⟨r2, s2, hn2, hv, hm⟩ := hval s h hlt
    rw [hn] at hn2
    have e : s1 = s2 := (Prod.mk.inj (Option.some.inj hn2)).2
    subst e
    rw [hv, hm] at hch
    simp at hch
  · intro s r s1 h hn hch
    by_contra hne
    have hlt : s.v.len < s.v.cap := by
      have := h.1
      omega
    obtain ⟨r2, s2, hn2, hv, hm, _⟩ := hptr s h hlt
    rw [hn] at hn2
    have e : s1 = s2 := (Prod.mk.inj (Option.some.inj hn2)).2
    subst e
    rw [hv, hm] at hch
    simp at hch

/-- Witness for C10: slices of length 1 and capacity 2 (reuse), and slices of length 1 and
capacity 1, whose invocation moves the slice to a new array. -/
theorem next_reuses_spare_witness :
    (∃ r s1, nextVal (fun c => c - 1) 0 (⟨[4, 6], ⟨0, 1, 2⟩⟩ : ValState Nat) = some (r, s1) ∧
      s1.v = { ptr := 0, len := 1 + 1, cap := 2 } ∧ s1.mem = [4, 6]) ∧
    (∃ r s1, nextPtr (fun c => c - 1) false 0 (⟨[some 0, none], [9], ⟨0, 1, 2⟩⟩ : PtrState Nat) =
        some (r, s1) ∧
      s1.v = { ptr := 0, len := 1 + 1, cap := 2 } ∧ s1.mem.length = [some 0, none].length ∧
      (∀ a, a ≠ 0 + 1 → s1.mem[a]? = [some 0, none][a]?)) ∧
    ((⟨[4], ⟨0, 1, 1⟩⟩ : ValState Nat).v.len = (⟨[4], ⟨0, 1, 1⟩⟩ : ValState Nat).v.cap) ∧
    ((⟨[some 0], [9], ⟨0, 1, 1⟩⟩ : PtrState Nat).v.len =
      (⟨[some 0], [9], ⟨0, 1, 1⟩⟩ : PtrState Nat).v.cap) :=
  ⟨(next_reuses_spare (fun c => c - 1) false 0).1 ⟨[4, 6], ⟨0, 1, 2⟩⟩ (by decide) (by decide),
   (next_reuses_spare (fun c => c - 1) false 0).2.1 ⟨[some 0, none], [9], ⟨0, 1, 2⟩⟩ (by decide)
     (by decide),
   (next_reuses_spare (fun c => c - 1) false 0).2.2.1 ⟨[4], ⟨0, 1, 1⟩⟩ 2 ⟨[4, 4, 0], ⟨1, 2, 2⟩⟩
     (by decide) (by decide) (Or.inl (by decide)),
   (next_reuses_spare (fun c => c - 1) false 0).2.2.2 ⟨[some 0], [9], ⟨0, 1, 1⟩⟩ (some 1)
     ⟨[some 0, some 0, some 1], [9, 0], ⟨1, 2, 2⟩⟩ (by decide) (by decide) (Or.inl (by decide))⟩

/-! ### The reference of the last invocation of a run -/

theorem calls_add (T : Type) (a b : Nat) : calls T (a + b) = calls T a ++ calls T b := by
  unfold calls
  rw [List.replicate_add]

/-- Value variant: after `n + 1` invocations the last reference is the address of the last
element, an allocated cell. -/
theorem execVal_calls_last {T : Type} (spare : Nat → Nat) (zero : T) (n : Nat)
    (refs : List Nat) (s : ValState T) (h : s.WF) :
    ∃ rs s1 r, execVal spare zero (calls T (n + 1)) (refs, s) = some (refs ++ rs ++ [r], s1) ∧
      rs.length = n ∧ s1.WF ∧ s1.v.len = s.v.len + n + 1 ∧ r = s1.v.ptr + (s.v.len + n) ∧
      r < s1.mem.length := by
  obtain ⟨rs, s1, he, hl, hw, hlen, _⟩ := execVal_calls spare zero n refs s h
  obtain ⟨r, s2, hn, hw2, hlen2, hr, _⟩ := nextVal_step spare zero s1 hw
  refine ⟨rs, s2, r, ?_, hl, hw2, by omega, by rw [hr, hlen], ?_⟩
  · rw [calls_succ, execVal_append, he]
    simp only [Option.bind, execVal, hn]
  · have := hw2.1
    have := hw2.2
    omega

/-- Pointer variant: after `n + 1` invocations the last reference is the object the last
element points to, an allocated object. -/
theorem execPtr_calls_last {T : Type} (spare : Nat → Nat) (zs : Bool) (zero : T) (n : Nat)
    (refs : List (Option Nat)) (s : PtrState T) (h : s.WF) :
    ∃ rs s1 p, execPtr spare zs zero (calls T (n + 1)) (refs, s) =
        some (refs ++ rs ++ [some p], s1) ∧
      rs.length = n ∧ s1.WF ∧ s1.v.len = s.v.len + n + 1 ∧
      s1.elemAt (s.v.len + n) = some (some p) ∧ p < s1.objs.length := by
  obtain ⟨rs, s1, he, hl, hw, hlen, _⟩ := execPtr_calls spare zs zero n refs s h
  obtain ⟨p, s2, hn, hw2, hlen2, hcell, hp, _⟩ := nextPtr_step spare zs zero s1 hw
  refine ⟨rs, s2, p, ?_, hl, hw2, by omega, ?_, hp⟩
  · rw [calls_succ, execPtr_append, he]
    simp only [Option.bind, execPtr, hn]
  · unfold PtrState.elemAt
    rw [if_pos (by omega), ← hlen]
    exact hcell

/-- C5 (amended): on a well-formed slice of length 0 of any capacity, let the accessor be
invoked `k + m + b` times (`k ≥ 1`) and let `x` be written through the reference returned by
the `k`-th invocation after `k + m` invocations. Value variant: when the slice still has the
backing array it had right after the `k`-th invocation (no invocation in between grew the
slice by appending), `x` is the element at index `k - 1` of the final slice. Pointer variant:
in every case `x` is the content of the object that element `k - 1` of the final slice points
to. -/
theorem write_reflected {T : Type} (spare : Nat → Nat) (zs : Bool) (zero : T) :
    (∀ (s : ValState T) (k m b : Nat) (x : T) (refs1 refs2 : List Nat) (s1 s2 : ValState T),
      s.WF → s.v.len = 0 → 1 ≤ k →
      execVal spare zero (calls T k) ([], s) = some (refs1, s1) →
      execVal spare zero (calls T m) (refs1, s1) = some (refs2, s2) →
      s2.v.ptr = s1.v.ptr →
      ∃ refs3 s3, execVal spare zero (Op.write k x :: calls T b) (refs2, s2) = some (refs3, s3) ∧
        s3.v.len = k + m + b ∧ s3.elemAt (k - 1) = some x) ∧
    (∀ (s : PtrState T) (k m b : Nat) (x : T), s.WF → s.v.len = 0 → 1 ≤ k →
      ∃ refs3 s3, execPtr spare zs zero (calls T (k + m) ++ Op.write k x :: calls T b) ([], s) =
          some (refs3, s3) ∧
        s3.v.len = k + m + b ∧ s3.derefAt (k - 1) = some x) := by
  constructor
  · intro s k m b x refs1 refs2 s1 s2 h h0 hk e1 e2 hptr
    obtain ⟨n, rfl⟩ : ∃ n, k = n + 1 := ⟨k - 1, by omega⟩
    obtain ⟨rs, s1b, r, he1, hl1, hw1, hlen1, hr, hrlt⟩ :=
      execVal_calls_last spare zero n [] s h
    rw [e1] at he1
    obtain ⟨hrefs1, hs1⟩ := Prod.mk.inj (Option.some.inj he1)
    subst hs1
    obtain ⟨rs2, s2b, he2, _, hw2, hlen2, hm2, _, _⟩ := execVal_calls spare zero m refs1 s1 hw1
    rw [e2] at he2
    obtain ⟨hrefs2, hs2⟩ := Prod.mk.inj (Option.some.inj he2)
    subst hs2
    have hget : refs2[n + 1 - 1]? = some r := by
      rw [hrefs2, hrefs1]
      have e : n + 1 - 1 = ([] ++ rs).length := by simp [hl1]
      rw [e, List.getElem?_append_left (by simp), List.getElem?_append_right (le_refl _)]
      simp
    have hrlt2 : r < s2.mem.length := by omega
    have hw3 : ({ s2 with mem := s2.mem.set r x } : ValState T).WF := by
      refine ⟨hw2.1, ?_⟩
      show s2.v.ptr + s2.v.cap ≤ (s2.mem.set r x).length
      rw [List.length_set]
      exact hw2.2
    obtain ⟨rs3, s3, he3, _, _, hlen3, _, _, hel3⟩ :=
      execVal_calls spare zero b refs2 { s2 with mem := s2.mem.set r x } hw3
    have hlen3b : s3.v.len = s2.v.len + b := hlen3
    refine ⟨refs2 ++ rs3, s3, ?_, by omega, ?_⟩
    · simp only [execVal, if_neg (Nat.succ_ne_zero n), hget, if_pos hrlt2]
      exact he3
    · have hi : n + 1 - 1 < s2.v.len := by omega
      rw [hel3 (n + 1 - 1) hi, elemAt_set s2 r x (n + 1 - 1) hrlt2,
        if_pos ⟨hi, by rw [hptr, hr]; omega⟩]
  · intro s k m b x h h0 hk
    obtain ⟨n, rfl⟩ : ∃ n, k = n + 1 := ⟨k - 1, by omega⟩
    obtain ⟨rs, s1, p, he1, hl1, hw1, hlen1, hcell, hp⟩ :=
      execPtr_calls_last spare zs zero n [] s h
    obtain ⟨rs2, s2, he2, _, hw2, hlen2, hm2, _, hel2⟩ :=
      execPtr_calls spare zs zero m ([] ++ rs ++ [some p]) s1 hw1
    have hget : ([] ++ rs ++ [some p] ++ rs2)[n + 1 - 1]? = some (some p) := by
      have e : n + 1 - 1 = ([] ++ rs).length := by simp [hl1]
      rw [e, List.getElem?_append_left (by simp), List.getElem?_append_right (le_refl _)]
      simp
    have hp2 : p < s2.objs.length := by omega
    have hw3 : ({ s2 with objs := s2.objs.set p x } : PtrState T).WF := by
      refine ⟨hw2.1, hw2.2.1, ?_⟩
      intro c hc
      show validCell (s2.objs.set p x).length c = true
      rw [List.length_set]
      exact hw2.2.2 c hc
    obtain ⟨rs3, s3, he3, _, _, hlen3, hd3⟩ :=
      execPtr_calls_deref spare zs zero b ([] ++ rs ++ [some p] ++ rs2)
        { s2 with objs := s2.objs.set p x } hw3
    have hlen3b : s3.v.len = s2.v.len + b := hlen3
    refine ⟨[] ++ rs ++ [some p] ++ rs2 ++ rs3, s3, ?_, by omega, ?_⟩
    · rw [execPtr_append, calls_add, execPtr_append, he1]
      simp only [Option.bind, he2, execPtr, if_neg (Nat.succ_ne_zero n), hget, if_pos hp2]
      exact he3
    · have hi : n + 1 - 1 < s2.v.len := by omega
      have hc2 : s2.elemAt (n + 1 - 1) = some (some p) := by
        rw [hel2 (n + 1 - 1) (by omega)]
        have e : n + 1 - 1 = s.v.len + n := by omega
        rw [e]
        exact hcell
      rw [hd3 (n + 1 - 1) hi, derefAt_set s2 p x hp2 (n + 1 - 1), if_pos hc2]

/-- Witness for C5 (amended): a slice of capacity 2 (the second invocation reuses the array
of the first reference), and a pointer slice of capacity 1 (the second invocation appends). -/
theorem write_reflected_witness :
    (∃ refs3 s3, execVal (fun c => c - 1) 0 (Op.write 1 7 :: calls Nat 1)
        ([0, 1], (⟨[0, 0], ⟨0, 2, 2⟩⟩ : ValState Nat)) = some (refs3, s3) ∧
      s3.v.len = 1 + 1 + 1 ∧ s3.elemAt (1 - 1) = some 7) ∧
    (∃ refs3 s3, execPtr (fun c => c - 1) false 0 (calls Nat (1 + 1) ++ Op.write 1 7 :: calls Nat 1)
        ([], (⟨[none], [], ⟨0, 0, 1⟩⟩ : PtrState Nat)) = some (refs3, s3) ∧
      s3.v.len = 1 + 1 + 1 ∧ s3.derefAt (1 - 1) = some 7) :=
  ⟨(write_reflected (fun c => c - 1) false 0).1 ⟨[0, 0], ⟨0, 0, 2⟩⟩ 1 1 1 7 [0] [0, 1]
      ⟨[0, 0], ⟨0, 1, 2⟩⟩ ⟨[0, 0], ⟨0, 2, 2⟩⟩ (by decide) rfl (by decide) (by decide) (by decide) rfl,
   (write_reflected (fun c => c - 1) false 0).2 ⟨[none], [], ⟨0, 0, 1⟩⟩ 1 1 1 7 (by decide) rfl
      (by decide)⟩

/-- C5 (counterexample): value variant, slice of length 0 and capacity 1 over a zeroed array.
The first invocation reuses the spare cell, the second one appends and so moves the slice to
a new array; the value 7 then written through the first reference lands in the old array,
and element 0 of the final slice is still 0. -/
theorem late_write_lost :
    (⟨[0], ⟨0, 0, 1⟩⟩ : ValState Nat).WF ∧
    execVal (fun c => c - 1) 0 (calls Nat 2 ++ [Op.write 1 7])
        ([], (⟨[0], ⟨0, 0, 1⟩⟩ : ValState Nat)) =
      some ([0, 2], ⟨[7, 0, 0], ⟨1, 2, 2⟩⟩) ∧
    (⟨[7, 0, 0], ⟨1, 2, 2⟩⟩ : ValState Nat).elemAt (1 - 1) = some 0 ∧
    (⟨[7, 0, 0], ⟨1, 2, 2⟩⟩ : ValState Nat).elemAt (1 - 1) ≠ some 7 := by
  decide

/-- C9 (amended): on a well-formed slice of length 0 of any capacity, let the accessor be
invoked once for each value of `xs` (`N` values), each value being written through the
returned reference before the next invocation. Value variant: the run returns, the final
slice has length `N` and the `k`-th value is its element of index `k - 1`, also when later
invocations moved the slice by appending. Pointer variant: the same holds for the content of
the object that element `k - 1` points to, provided no two cells of the initial backing array
hold the same non-nil pointer. (`hz` says what size zero means: such a type has a single
value.) -/
theorem fill_reflected {T : Type} (spare : Nat → Nat) (zs : Bool) (zero : T)
    (hz : zs = true → ∀ x : T, x = zero) :
    (∀ (s : ValState T) (xs : List T), s.WF → s.v.len = 0 →
      ∃ refs s1, execVal spare zero (fillOps 0 xs) ([], s) = some (refs, s1) ∧
        s1.v.len = xs.length ∧
        ∀ k, 1 ≤ k → k ≤ xs.length → s1.elemAt (k - 1) = xs[k - 1]?) ∧
    (∀ (s : PtrState T) (xs : List T), s.WF → s.NoAlias → s.v.len = 0 →
      ∃ refs s1, execPtr spare zs zero (fillOps 0 xs) ([], s) = some (refs, s1) ∧
        s1.v.len = xs.length ∧
        ∀ k, 1 ≤ k → k ≤ xs.length → s1.derefAt (k - 1) = xs[k - 1]?) := by
  constructor
  · intro s xs h h0
    obtain ⟨refs, s1, he, _, hlen, _, hnew⟩ := fillVal spare zero xs 0 [] s h rfl
    refine ⟨refs, s1, he, by omega, ?_⟩
    intro k hk1 hk2
    have := hnew (k - 1) (by omega)
    rw [h0, Nat.zero_add] at this
    exact this
  · intro s xs h hna h0
    have hfill : ∃ refs1 s1, execPtr spare zs zero (fillOps 0 xs) ([], s) = some (refs1, s1) ∧
        s1.WF ∧ s1.v.len = s.v.len + xs.length ∧
        (∀ i, i < s.v.len → s1.derefAt i = s.derefAt i) ∧
        (∀ j, j < xs.length → s1.derefAt (s.v.len + j) = xs[j]?) := by
      cases hzs : zs with
      | false =>
        rw [← hzs]
        exact fillPtr spare zs zero hzs xs 0 [] s h hna rfl
      | true =>
        rw [← hzs]
        exact fillPtr_single spare zs zero (hz hzs) xs 0 [] s h rfl
    obtain ⟨refs, s1, he, _, hlen, _, hnew⟩ := hfill
    refine ⟨refs, s1, he, by omega, ?_⟩
    intro k hk1 hk2
    have := hnew (k - 1) (by omega)
    rw [h0, Nat.zero_add] at this
    exact this

/-- Witness for C9 (amended): three values through a value slice of capacity 1 (the second
and third invocations append), and through a pointer slice of capacity 2 whose cells hold a
pointer and nil. -/
theorem fill_reflected_witness :
    (∃ refs s1, execVal (fun c => c - 1) 0 (fillOps 0 [7, 8, 9])
        ([], (⟨[0], ⟨0, 0, 1⟩⟩ : ValState Nat)) = some (refs, s1) ∧
      s1.v.len = [7, 8, 9].length ∧
      ∀ k, 1 ≤ k → k ≤ [7, 8, 9].length → s1.elemAt (k - 1) = [7, 8, 9][k - 1]?) ∧
    (∃ refs s1, execPtr (fun c => c - 1) false 0 (fillOps 0 [7, 8, 9])
        ([], (⟨[some 0, none], [5], ⟨0, 0, 2⟩⟩ : PtrState Nat)) = some (refs, s1) ∧
      s1.v.len = [7, 8, 9].length ∧
      ∀ k, 1 ≤ k → k ≤ [7, 8, 9].length → s1.derefAt (k - 1) = [7, 8, 9][k - 1]?) :=
  ⟨(fill_reflected (fun c => c - 1) false 0 (fun h => absurd h (by decide))).1
      ⟨[0], ⟨0, 0, 1⟩⟩ [7, 8, 9] (by decide) rfl,
   (fill_reflected (fun c => c - 1) false 0 (fun h => absurd h (by decide))).2
      ⟨[some 0, none], [5], ⟨0, 0, 2⟩⟩ [7, 8, 9] (by decide) (by decide) rfl⟩

/-- C9 (counterexample): pointer variant, slice of length 0 and capacity 2 whose two spare
cells hold the same pointer, to an object holding 5. Both invocations reuse a cell and return
the reference to that one object; 7 is written through the first reference, then 8 through
the second, and the object that element 0 of the final slice points to holds 8, not 7. -/
theorem fill_alias_overwritten :
    (⟨[some 0, some 0], [5], ⟨0, 0, 2⟩⟩ : PtrState Nat).WF ∧
    execPtr (fun c => c - 1) false 0 (fillOps 0 [7, 8])
        ([], (⟨[some 0, some 0], [5], ⟨0, 0, 2⟩⟩ : PtrState Nat)) =
      some ([some 0, some 0], ⟨[some 0, some 0], [8], ⟨0, 2, 2⟩⟩) ∧
    (⟨[some 0, some 0], [8], ⟨0, 2, 2⟩⟩ : PtrState Nat).derefAt (1 - 1) = some 8 ∧
    (⟨[some 0, some 0], [8], ⟨0, 2, 2⟩⟩ : PtrState Nat).derefAt (1 - 1) ≠ [7, 8][1 - 1]? := by
  decide

/-! ### The result of `ToLower` has no upper-case byte -/

theorem lowerByte_not_upper (c : Nat) : isUpperByte (lowerByte c) = false := by
  cases h : isUpperByte (lowerByte c) with
  | false => rfl
  | true =>
    have h2 := (isUpperByte_iff _).1 h
    unfold lowerByte at h2
    split_ifs at h2 with g
    · omega
    · exact absurd h2 g

theorem map_lowerByte_noUpper (s : List Nat) : ∀ c ∈ s.map lowerByte, isUpperByte c = false := by
  intro c hc
  obtain ⟨a, _, rfl⟩ := List.mem_map.1 hc
  exact lowerByte_not_upper a

/-- C16: for every byte string `s`, `ToLower s` returns a result that contains no byte in
'A'..'Z': `isLower` answers true on it. -/
theorem ToLower_isLower (s : List Nat) :
    ∃ r, ToLower s = some r ∧ isLower r = some true ∧ ∀ c ∈ r, ¬ (65 ≤ c ∧ c ≤ 90) := by
  refine ⟨s.map lowerByte, ToLower_eq_map s, ?_, ?_⟩
  · rw [isLower_eq, decide_eq_true (map_lowerByte_noUpper s)]
  · intro c hc hu
    have h1 := map_lowerByte_noUpper s c hc
    rw [(isUpperByte_iff c).2 hu] at h1
    exact Bool.noConfusion h1

/-- Witness for C16 on the bytes of "aZ[@A" followed by the byte 0xff. -/
theorem ToLower_isLower_witness :
    ∃ r, ToLower [97, 90, 91, 64, 65, 255] = some r ∧ isLower r = some true ∧
      ∀ c ∈ r, ¬ (65 ≤ c ∧ c ≤ 90) :=
  ToLower_isLower [97, 90, 91, 64, 65, 255]

/-- C17: `ToLower` is idempotent: for every byte string `s`, `ToLower s` returns a result `r`
and `ToLower r` returns `r` again, so `ToLower (ToLower s) = ToLower s`. -/
theorem ToLower_idempotent (s : List Nat) :
    (∃ r, ToLower s = some r ∧ ToLower r = some r) ∧
    (ToLower s).bind ToLower = ToLower s := by
  have h1 : ToLower (s.map lowerByte) = some (s.map lowerByte) := by
    rw [ToLower_eq_map, map_lowerByte_of_noUpper _ (map_lowerByte_noUpper s)]
  refine ⟨⟨s.map lowerByte, ToLower_eq_map s, h1⟩, ?_⟩
  rw [ToLower_eq_map s]
  exact h1

/-- Witness for C17 on the bytes of "Go-REDIS" and on the empty string. -/
theorem ToLower_idempotent_witness :
    ((∃ r, ToLower [71, 111, 45, 82, 69, 68, 73, 83] = some r ∧ ToLower r = some r) ∧
      (ToLower [71, 111, 45, 82, 69, 68, 73, 83]).bind ToLower =
        ToLower [71, 111, 45, 82, 69, 68, 73, 83]) ∧
    ((∃ r, ToLower [] = some r ∧ ToLower r = some r) ∧ (ToLower []).bind ToLower = ToLower []) :=
  ⟨ToLower_idempotent [71, 111, 45, 82, 69, 68, 73, 83], ToLower_idempotent []⟩

/-! ### Claims on the two paths of the accessor -/

/-- C11: on a well-formed slice state with `len = cap` one invocation grows the slice by
appending: the new slice is the result of `reflect.Append` and has length `len + 1`. Value
variant: the appended element is the zero value of `T`; the returned slot is the new last
index and holds it. Pointer variant: the appended element is the pointer given by a
`reflect.New(elemType)` performed in this invocation, it points to an object holding the zero
value of `T`, and the returned reference is that object; for `T` of nonzero size the object
is added to the heap at an address held by no cell of the old memory (for `T` of size zero,
a type with a single value, the Go runtime gives the address shared by all objects of size
zero). -/
theorem next_appends_when_full {T : Type} (spare : Nat → Nat) (zs : Bool) (zero : T)
    (hz : zs = true → ∀ x : T, x = zero) :
    (∀ s : ValState T, s.WF → s.v.len = s.v.cap →
      ∃ r s1, nextVal spare zero s = some (r, s1) ∧
        reflectAppend spare zero s.mem s.v zero = some (s1.mem, s1.v) ∧
        s1.v.len = s.v.len + 1 ∧
        s1.v.index (s.v.len : Int) = some r ∧
        s1.elemAt s.v.len = some zero ∧ s1.mem[r]? = some zero) ∧
    (∀ s : PtrState T, s.WF → s.v.len = s.v.cap →
      ∃ p s1, reflectNew zs zero s.objs = (p, s1.objs) ∧
        nextPtr spare zs zero s = some (some p, s1) ∧
        reflectAppend spare none s.mem s.v (some p) = some (s1.mem, s1.v) ∧
        s1.v.len = s.v.len + 1 ∧
        s1.elemAt s.v.len = some (some p) ∧
        s1.derefAt s.v.len = some zero ∧
        (zs = false →
          p = s.objs.length ∧ s1.objs = s.objs ++ [zero] ∧ ∀ c ∈ s.mem, c ≠ some p) ∧
        (zs = true → p = 0)) := by
  constructor
  · intro s h hfull
    have hlt : ¬ s.v.len < s.v.cap := by omega
    have hle : s.v.ptr + s.v.len ≤ s.mem.length := by
      have := h.2
      omega
    have hcell := grow_get_eq s.mem s.v.ptr s.v.len zero (List.replicate (spare s.v.cap) zero) hle
    refine ⟨_, _, nextVal_grow spare zero s hlt, reflectAppend_full spare zero s.mem s.v zero hlt,
      rfl, ?_, ?_, hcell⟩
    · exact index_nat _ s.v.len (Nat.lt_succ_self _)
    · unfold ValState.elemAt
      rw [if_pos (Nat.lt_succ_self _)]
      exact hcell
  · intro s h hfull
    have hlt : ¬ s.v.len < s.v.cap := by omega
    have hle : s.v.ptr + s.v.len ≤ s.mem.length := by
      have := h.2.1
      omega
    have hcell := grow_get_eq s.mem s.v.ptr s.v.len (some (reflectNew zs zero s.objs).1)
      (List.replicate (spare s.v.cap) none) hle
    refine ⟨_, _, rfl, nextPtr_grow spare zs zero s hlt,
      reflectAppend_full spare none s.mem s.v (some (reflectNew zs zero s.objs).1) hlt,
      rfl, ?_, ?_, ?_, ?_⟩
    · unfold PtrState.elemAt
      rw [if_pos (Nat.lt_succ_self _)]
      exact hcell
    · unfold PtrState.derefAt PtrState.elemAt
      rw [if_pos (Nat.lt_succ_self _)]
      simp only [hcell]
      exact reflectNew_get zs zero s.objs hz
    · intro hzs
      subst hzs
      refine ⟨rfl, rfl, ?_⟩
      intro c hcm hce
      have := h.2.2 c hcm
      rw [hce, reflectNew_false] at this
      simp [validCell] at this
    · intro hzs
      subst hzs
      rfl

/-- Witness for C11: full slices of length 2 and capacity 2 (the pointer variant with
elements of nonzero size, and with elements of size zero, type `Unit`, where the appended
pointer is the one the older elements hold), and an empty value slice of capacity 0. -/
theorem next_appends_when_full_witness :
    (∃ r s1, nextVal (fun c => c - 1) 0 (⟨[4, 6], ⟨0, 2, 2⟩⟩ : ValState Nat) = some (r, s1) ∧
      reflectAppend (fun c => c - 1) 0 [4, 6] ⟨0, 2, 2⟩ 0 = some (s1.mem, s1.v) ∧
      s1.v.len = 2 + 1 ∧
      s1.v.index ((2 : Nat) : Int) = some r ∧ s1.elemAt 2 = some 0 ∧ s1.mem[r]? = some 0) ∧
    (∃ p s1, reflectNew false 0 [9, 8] = (p, s1.objs) ∧
      nextPtr (fun c => c - 1) false 0 (⟨[some 1, some 0], [9, 8], ⟨0, 2, 2⟩⟩ : PtrState Nat) =
        some (some p, s1) ∧
      reflectAppend (fun c => c - 1) none [some 1, some 0] ⟨0, 2, 2⟩ (some p) =
        some (s1.mem, s1.v) ∧
      s1.v.len = 2 + 1 ∧ s1.elemAt 2 = some (some p) ∧ s1.derefAt 2 = some 0 ∧
      (false = false → p = [9, 8].length ∧ s1.objs = [9, 8] ++ [0] ∧
        ∀ c ∈ [some 1, some 0], c ≠ some p) ∧
      (false = true → p = 0)) ∧
    (∃ p s1, reflectNew true () [()] = (p, s1.objs) ∧
      nextPtr (fun c => c - 1) true () (⟨[some 0, some 0], [()], ⟨0, 2, 2⟩⟩ : PtrState Unit) =
        some (some p, s1) ∧
      reflectAppend (fun c => c - 1) none [some 0, some 0] ⟨0, 2, 2⟩ (some p) =
        some (s1.mem, s1.v) ∧
      s1.v.len = 2 + 1 ∧ s1.elemAt 2 = some (some p) ∧ s1.derefAt 2 = some () ∧
      (true = false → p = [()].length ∧ s1.objs = [()] ++ [()] ∧
        ∀ c ∈ [some 0, some 0], c ≠ some p) ∧
      (true = true → p = 0)) ∧
    (∃ r s1, nextVal (fun c => c - 1) 0 (⟨[], ⟨0, 0, 0⟩⟩ : ValState Nat) = some (r, s1) ∧
      reflectAppend (fun c => c - 1) 0 [] ⟨0, 0, 0⟩ 0 = some (s1.mem, s1.v) ∧
      s1.v.len = 0 + 1 ∧
      s1.v.index ((0 : Nat) : Int) = some r ∧ s1.elemAt 0 = some 0 ∧ s1.mem[r]? = some 0) :=
  ⟨(next_appends_when_full (fun c => c - 1) false 0 (fun h => absurd h (by decide))).1
      ⟨[4, 6], ⟨0, 2, 2⟩⟩ (by decide) rfl,
   (next_appends_when_full (fun c => c - 1) false 0 (fun h => absurd h (by decide))).2
      ⟨[some 1, some 0], [9, 8], ⟨0, 2, 2⟩⟩ (by decide) rfl,
   (next_appends_when_full (fun c => c - 1) true () (fun _ _ => rfl)).2
      ⟨[some 0, some 0], [()], ⟨0, 2, 2⟩⟩ (by decide) rfl,
   (next_appends_when_full (fun c => c - 1) false 0 (fun h => absurd h (by decide))).1
      ⟨[], ⟨0, 0, 0⟩⟩ (by decide) rfl⟩

/-- C13: on the reuse path (`len < cap`, well-formed state) the accessor does not reset the
slot. Value variant: the returned slot is index `len` and holds the value the backing array
already had there; for every value `x` there is a state in which that value is `x`, so it
need not be the zero value. Pointer variant: when the backing slot at index `len` holds a
non-nil pointer `p`, memory and objects are unchanged, element `len` is still `p`, and the
returned reference is the object at `p`, with the content it had. -/
theorem next_reuse_keeps_slot {T : Type} (spare : Nat → Nat) (zs : Bool) (zero : T) :
    (∀ s : ValState T, s.WF → s.v.len < s.v.cap →
      ∃ r s1 x, nextVal spare zero s = some (r, s1) ∧ s1.v.index (s.v.len : Int) = some r ∧
        s.mem[s.v.ptr + s.v.len]? = some x ∧ s1.mem[r]? = some x ∧
        s1.elemAt s.v.len = some x) ∧
    (∀ x : T, (⟨[x], ⟨0, 0, 1⟩⟩ : ValState T).WF ∧
      nextVal spare zero ⟨[x], ⟨0, 0, 1⟩⟩ = some (0, ⟨[x], ⟨0, 1, 1⟩⟩) ∧
      (⟨[x], ⟨0, 1, 1⟩⟩ : ValState T).elemAt 0 = some x) ∧
    (∀ (s : PtrState T) (p : Nat), s.WF → s.v.len < s.v.cap →
      s.mem[s.v.ptr + s.v.len]? = some (some p) →
      ∃ s1, nextPtr spare zs zero s = some (some p, s1) ∧ s1.elemAt s.v.len = some (some p) ∧
        s1.mem = s.mem ∧ s1.objs = s.objs ∧ p < s.objs.length ∧
        s1.derefAt s.v.len = s.objs[p]?) := by
  refine ⟨?_, ?_, ?_⟩
  · intro s h hlt
    have ha : s.v.ptr + s.v.len < s.mem.length := by
      have := h.2
      omega
    have hx : s.mem[s.v.ptr + s.v.len]? = some (s.mem.get ⟨_, ha⟩) :=
      List.getElem?_eq_getElem ha
    refine ⟨_, _, _, nextVal_reuse spare zero s hlt, ?_, hx, hx, ?_⟩
    · exact index_nat _ s.v.len (Nat.lt_succ_self _)
    · unfold ValState.elemAt
      rw [if_pos (Nat.lt_succ_self _)]
      exact hx
  · intro x
    refine ⟨⟨Nat.zero_le _, le_refl _⟩, ?_, rfl⟩
    exact nextVal_reuse spare zero ⟨[x], ⟨0, 0, 1⟩⟩ Nat.zero_lt_one
  · intro s p h hlt hc
    refine ⟨_, nextPtr_reuse_some spare zs zero s hlt p hc, ?_, rfl, rfl, valid_of_get s h _ _ hc, ?_⟩
    · unfold PtrState.elemAt
      rw [if_pos (Nat.lt_succ_self _)]
      exact hc
    · unfold PtrState.derefAt PtrState.elemAt
      rw [if_pos (Nat.lt_succ_self _)]
      simp only [hc]

/-- Witness for C13: a value slice whose spare cell holds 6 (zero value 0), and a pointer
slice whose spare cell points to an object holding 8. -/
theorem next_reuse_keeps_slot_witness :
    (∃ r s1 x, nextVal (fun c => c - 1) 0 (⟨[4, 6], ⟨0, 1, 2⟩⟩ : ValState Nat) = some (r, s1) ∧
      s1.v.index ((1 : Nat) : Int) = some r ∧ [4, 6][0 + 1]? = some x ∧ s1.mem[r]? = some x ∧
      s1.elemAt 1 = some x) ∧
    (∃ s1, nextPtr (fun c => c - 1) false 0 (⟨[some 0, some 1], [9, 8], ⟨0, 1, 2⟩⟩ : PtrState Nat) =
        some (some 1, s1) ∧
      s1.elemAt 1 = some (some 1) ∧ s1.mem = [some 0, some 1] ∧ s1.objs = [9, 8] ∧
      1 < [9, 8].length ∧ s1.derefAt 1 = [9, 8][1]?) :=
  ⟨(next_reuse_keeps_slot (fun c => c - 1) false 0).1 ⟨[4, 6], ⟨0, 1, 2⟩⟩ (by decide) (by decide),
   (next_reuse_keeps_slot (fun c => c - 1) false 0).2.2 ⟨[some 0, some 1], [9, 8], ⟨0, 1, 2⟩⟩ 1
     (by decide) (by decide) rfl⟩

/-- C14: for both variants and every well-formed slice state of length `L`, one invocation
returns and leaves every element at an index below `L` as it was, on the reuse path and on
the append path alike; in the pointer variant the objects these elements point to keep their
content too. -/
theorem next_keeps_earlier {T : Type} (spare : Nat → Nat) (zs : Bool) (zero : T) :
    (∀ s : ValState T, s.WF →
      ∃ r s1, nextVal spare zero s = some (r, s1) ∧ s1.v.len = s.v.len + 1 ∧
        ∀ i, i < s.v.len → s1.elemAt i = s.elemAt i) ∧
    (∀ s : PtrState T, s.WF →
      ∃ r s1, nextPtr spare zs zero s = some (r, s1) ∧ s1.v.len = s.v.len + 1 ∧
        ∀ i, i < s.v.len → s1.elemAt i = s.elemAt i ∧ s1.derefAt i = s.derefAt i) := by
  constructor
  · intro s h
    obtain ⟨r, s1, hn, _, hlen, _, _, _, hel⟩ := nextVal_step spare zero s h
    refine ⟨r, s1, hn, hlen, ?_⟩
    intro i hi
    unfold ValState.elemAt
    rw [if_pos (by omega), if_pos hi]
    exact hel i hi
  · intro s h
    obtain ⟨p, s1, hn, _, hlen, _, _, _, hobj, hel, _⟩ := nextPtr_step spare zs zero s h
    refine ⟨some p, s1, hn, hlen, ?_⟩
    intro i hi
    constructor
    · unfold PtrState.elemAt
      rw [if_pos (by omega), if_pos hi]
      exact hel i hi
    · exact derefAt_congr s s1 h i hi (by omega) (hel i hi) hobj

/-- Witness for C14: value and pointer slices of length 2, with capacity 3 (reuse path) and
with capacity 2 (append path). -/
theorem next_keeps_earlier_witness :
    (∃ r s1, nextVal (fun c => c - 1) 0 (⟨[4, 6, 7], ⟨0, 2, 3⟩⟩ : ValState Nat) = some (r, s1) ∧
      s1.v.len = 2 + 1 ∧
      ∀ i, i < 2 → s1.elemAt i = (⟨[4, 6, 7], ⟨0, 2, 3⟩⟩ : ValState Nat).elemAt i) ∧
    (∃ r s1, nextVal (fun c => c - 1) 0 (⟨[4, 6], ⟨0, 2, 2⟩⟩ : ValState Nat) = some (r, s1) ∧
      s1.v.len = 2 + 1 ∧
      ∀ i, i < 2 → s1.elemAt i = (⟨[4, 6], ⟨0, 2, 2⟩⟩ : ValState Nat).elemAt i) ∧
    (∃ r s1, nextPtr (fun c => c - 1) false 0 (⟨[some 1, some 0, none], [9, 8], ⟨0, 2, 3⟩⟩ : PtrState Nat) =
        some (r, s1) ∧ s1.v.len = 2 + 1 ∧
      ∀ i, i < 2 →
        s1.elemAt i = (⟨[some 1, some 0, none], [9, 8], ⟨0, 2, 3⟩⟩ : PtrState Nat).elemAt i ∧
        s1.derefAt i = (⟨[some 1, some 0, none], [9, 8], ⟨0, 2, 3⟩⟩ : PtrState Nat).derefAt i) ∧
    (∃ r s1, nextPtr (fun c => c - 1) false 0 (⟨[some 1, some 0], [9, 8], ⟨0, 2, 2⟩⟩ : PtrState Nat) =
        some (r, s1) ∧ s1.v.len = 2 + 1 ∧
      ∀ i, i < 2 →
        s1.elemAt i = (⟨[some 1, some 0], [9, 8], ⟨0, 2, 2⟩⟩ : PtrState Nat).elemAt i ∧
        s1.derefAt i = (⟨[some 1, some 0], [9, 8], ⟨0, 2, 2⟩⟩ : PtrState Nat).derefAt i) :=
  ⟨(next_keeps_earlier (fun c => c - 1) false 0).1 ⟨[4, 6, 7], ⟨0, 2, 3⟩⟩ (by decide),
   (next_keeps_earlier (fun c => c - 1) false 0).1 ⟨[4, 6], ⟨0, 2, 2⟩⟩ (by decide),
   (next_keeps_earlier (fun c => c - 1) false 0).2 ⟨[some 1, some 0, none], [9, 8], ⟨0, 2, 3⟩⟩ (by decide),
   (next_keeps_earlier (fun c => c - 1) false 0).2 ⟨[some 1, some 0], [9, 8], ⟨0, 2, 2⟩⟩ (by decide)⟩

/-! ### Range safety and non-nil elements -/

theorem index_some_iff (v : Slice) (i : Int) :
    (∃ a, v.index i = some a) ↔ 0 ≤ i ∧ i < (v.len : Int) := by
  unfold Slice.index
  by_cases h : 0 ≤ i ∧ i < (v.len : Int)
  · rw [if_pos h]
    exact ⟨fun _ => h, fun _ => ⟨_, rfl⟩⟩
  · rw [if_neg h]
    constructor
    · intro hx
      obtain ⟨a, ha⟩ := hx
      exact Option.noConfusion ha
    · intro hx
      exact absurd hx h

theorem reslice_full_none (v : Slice) (h : ¬ v.len < v.cap) :
    v.reslice 0 ((v.len : Int) + 1) = none := by
  unfold Slice.reslice
  rw [if_neg]
  intro hh
  omega

/-- C12: on a well-formed slice state (`len ≤ cap`) an invocation of either closure returns,
that is, no `Slice` or `Index` it performs is out of range. With `len < cap` the re-slice to
`len + 1` is in range and the index `Len() - 1` read after it is an index of the re-sliced
value. Otherwise the re-slice to `len + 1` would be out of range; it is not performed, the
slice is appended to, and `Len() - 1` is an index of the appended slice. (`Index` yields an
address exactly for an index `i` with `0 ≤ i < len`.) -/
theorem next_in_range {T : Type} (spare : Nat → Nat) (zs : Bool) (zero : T) :
    (∀ sv : SliceVar T, sv.WF → sv.len ≤ sv.cap ∧
      ∃ r sv1, MakeSliceNextElemFunc spare zs zero sv = some (r, sv1)) ∧
    (∀ (v : Slice) (i : Int), (∃ a, v.index i = some a) ↔ 0 ≤ i ∧ i < (v.len : Int)) ∧
    (∀ s : ValState T, s.WF → s.v.len < s.v.cap →
      ∃ v1 r, s.v.reslice 0 ((s.v.len : Int) + 1) = some v1 ∧ v1.len = s.v.len + 1 ∧
        v1.index ((v1.len : Int) - 1) = some r ∧
        nextVal spare zero s = some (r, { s with v := v1 })) ∧
    (∀ s : ValState T, s.WF → ¬ s.v.len < s.v.cap →
      s.v.reslice 0 ((s.v.len : Int) + 1) = none ∧
      ∃ mem1 v1 r, reflectAppend spare zero s.mem s.v zero = some (mem1, v1) ∧
        v1.len = s.v.len + 1 ∧ v1.index ((v1.len : Int) - 1) = some r ∧
        nextVal spare zero s = some (r, { mem := mem1, v := v1 })) ∧
    (∀ s : PtrState T, s.WF → s.v.len < s.v.cap →
      ∃ v1 a c r s1, s.v.reslice 0 ((s.v.len : Int) + 1) = some v1 ∧ v1.len = s.v.len + 1 ∧
        v1.index ((v1.len : Int) - 1) = some a ∧ s.mem[a]? = some c ∧
        nextPtr spare zs zero s = some (r, s1) ∧ s1.v = v1) ∧
    (∀ s : PtrState T, s.WF → ¬ s.v.len < s.v.cap →
      s.v.reslice 0 ((s.v.len : Int) + 1) = none ∧
      ∃ mem1 v1 a,
        reflectAppend spare none s.mem s.v (some (reflectNew zs zero s.objs).1) =
          some (mem1, v1) ∧
        v1.len = s.v.len + 1 ∧ v1.index ((v1.len : Int) - 1) = some a ∧
        nextPtr spare zs zero s =
          some (some (reflectNew zs zero s.objs).1,
            { mem := mem1, objs := (reflectNew zs zero s.objs).2, v := v1 })) := by
  have e1 : ∀ n : Nat, ((n : Int) + 1) = ((n + 1 : Nat) : Int) := by
    intro n
    push_cast
    rfl
  have e2 : ∀ n : Nat, (((n + 1 : Nat) : Int) - 1) = ((n : Nat) : Int) := by
    intro n
    push_cast
    omega
  refine ⟨?_, index_some_iff, ?_, ?_, ?_, ?_⟩
  · intro sv h
    cases sv with
    | values s =>
      obtain ⟨r, s1, hn, _⟩ := nextVal_step spare zero s h
      refine ⟨h.1, Ref.cell r, SliceVar.values s1, ?_⟩
      simp only [MakeSliceNextElemFunc, hn]
    | pointers s =>
      obtain ⟨p, s1, hn, _⟩ := nextPtr_step spare zs zero s h
      refine ⟨h.1, Ref.pointee (some p), SliceVar.pointers s1, ?_⟩
      simp only [MakeSliceNextElemFunc, hn]
  · intro s _ hlt
    refine ⟨{ ptr := s.v.ptr, len := s.v.len + 1, cap := s.v.cap }, s.v.ptr + s.v.len, ?_, rfl,
      ?_, nextVal_reuse spare zero s hlt⟩
    · rw [e1]
      exact reslice_zero s.v (s.v.len + 1) hlt
    · show Slice.index _ (((s.v.len + 1 : Nat) : Int) - 1) = _
      rw [e2]
      exact index_nat _ s.v.len (Nat.lt_succ_self _)
  · intro s _ hlt
    refine ⟨reslice_full_none s.v hlt, _, _, _, reflectAppend_full spare zero s.mem s.v zero hlt,
      rfl, ?_, nextVal_grow spare zero s hlt⟩
    show Slice.index _ (((s.v.len + 1 : Nat) : Int) - 1) = _
    rw [e2]
    exact index_nat _ s.v.len (Nat.lt_succ_self _)
  · intro s h hlt
    have ha : s.v.ptr + s.v.len < s.mem.length := by
      have := h.2.1
      omega
    obtain ⟨p, s1, hn, _, _, _⟩ := nextPtr_step spare zs zero s h
    have hv : s1.v = { ptr := s.v.ptr, len := s.v.len + 1, cap := s.v.cap } := by
      obtain ⟨c, hc⟩ : ∃ c, s.mem[s.v.ptr + s.v.len]? = some c :=
        ⟨_, List.getElem?_eq_getElem ha⟩
      cases c with
      | none =>
        have h2 := nextPtr_reuse_nil spare zs zero s hlt hc
        rw [hn] at h2
        rw [(Prod.mk.inj (Option.some.inj h2)).2]
      | some q =>
        have h2 := nextPtr_reuse_some spare zs zero s hlt q hc
        rw [hn] at h2
        rw [(Prod.mk.inj (Option.some.inj h2)).2]
    refine ⟨{ ptr := s.v.ptr, len := s.v.len + 1, cap := s.v.cap }, s.v.ptr + s.v.len, _,
      some p, s1, ?_, rfl, ?_, List.getElem?_eq_getElem ha, hn, hv⟩
    · rw [e1]
      exact reslice_zero s.v (s.v.len + 1) hlt
    · show Slice.index _ (((s.v.len + 1 : Nat) : Int) - 1) = _
      rw [e2]
      exact index_nat _ s.v.len (Nat.lt_succ_self _)
  · intro s _ hlt
    refine ⟨reslice_full_none s.v hlt, _, _, s.mem.length + s.v.len,
      reflectAppend_full spare none s.mem s.v (some (reflectNew zs zero s.objs).1) hlt, rfl, ?_,
      nextPtr_grow spare zs zero s hlt⟩
    show Slice.index _ (((s.v.len + 1 : Nat) : Int) - 1) = _
    rw [e2]
    exact index_nat _ s.v.len (Nat.lt_succ_self _)

/-- Witness for C12: value and pointer slices of length 1, with capacity 2 and with
capacity 1. -/
theorem next_in_range_witness :
    (∃ r sv1, MakeSliceNextElemFunc (fun c => c - 1) false 0
        (SliceVar.pointers (⟨[some 0, none], [9], ⟨0, 1, 2⟩⟩ : PtrState Nat)) = some (r, sv1)) ∧
    (∃ v1 r, (⟨0, 1, 2⟩ : Slice).reslice 0 (((1 : Nat) : Int) + 1) = some v1 ∧ v1.len = 1 + 1 ∧
      v1.index ((v1.len : Int) - 1) = some r ∧
      nextVal (fun c => c - 1) 0 (⟨[4, 6], ⟨0, 1, 2⟩⟩ : ValState Nat) =
        some (r, { mem := [4, 6], v := v1 })) ∧
    ((⟨0, 1, 1⟩ : Slice).reslice 0 (((1 : Nat) : Int) + 1) = none ∧
      ∃ mem1 v1 r, reflectAppend (fun c => c - 1) 0 [4] ⟨0, 1, 1⟩ 0 = some (mem1, v1) ∧
        v1.len = 1 + 1 ∧ v1.index ((v1.len : Int) - 1) = some r ∧
        nextVal (fun c => c - 1) 0 (⟨[4], ⟨0, 1, 1⟩⟩ : ValState Nat) =
          some (r, { mem := mem1, v := v1 })) ∧
    (∃ v1 a c r s1, (⟨0, 1, 2⟩ : Slice).reslice 0 (((1 : Nat) : Int) + 1) = some v1 ∧
      v1.len = 1 + 1 ∧ v1.index ((v1.len : Int) - 1) = some a ∧
      [some 0, none][a]? = some c ∧
      nextPtr (fun c => c - 1) false 0 (⟨[some 0, none], [9], ⟨0, 1, 2⟩⟩ : PtrState Nat) =
        some (r, s1) ∧ s1.v = v1) ∧
    ((⟨0, 1, 1⟩ : Slice).reslice 0 (((1 : Nat) : Int) + 1) = none ∧
      ∃ mem1 v1 a, reflectAppend (fun c => c - 1) none [some 0] ⟨0, 1, 1⟩ (some 1) =
          some (mem1, v1) ∧
        v1.len = 1 + 1 ∧ v1.index ((v1.len : Int) - 1) = some a ∧
        nextPtr (fun c => c - 1) false 0 (⟨[some 0], [9], ⟨0, 1, 1⟩⟩ : PtrState Nat) =
          some (some 1, { mem := mem1, objs := [9] ++ [0], v := v1 })) :=
  ⟨((next_in_range (fun c => c - 1) false 0).1
      (SliceVar.pointers ⟨[some 0, none], [9], ⟨0, 1, 2⟩⟩) (by decide)).2,
   (next_in_range (fun c => c - 1) false 0).2.2.1 ⟨[4, 6], ⟨0, 1, 2⟩⟩ (by decide) (by decide),
   (next_in_range (fun c => c - 1) false 0).2.2.2.1 ⟨[4], ⟨0, 1, 1⟩⟩ (by decide) (by decide),
   (next_in_range (fun c => c - 1) false 0).2.2.2.2.1 ⟨[some 0, none], [9], ⟨0, 1, 2⟩⟩ (by decide)
     (by decide),
   (next_in_range (fun c => c - 1) false 0).2.2.2.2.2 ⟨[some 0], [9], ⟨0, 1, 1⟩⟩ (by decide)
     (by decide)⟩

/-- Running `n` invocations of the pointer variant keeps every element of the slice non-nil
when the elements it started with are non-nil. -/
theorem execPtr_calls_nonnil {T : Type} (spare : Nat → Nat) (zs : Bool) (zero : T) :
    ∀ (n : Nat) (refs : List (Option Nat)) (s : PtrState T), s.WF →
      (∀ i, i < s.v.len → ∃ p, s.elemAt i = some (some p)) →
      ∃ rs s1, execPtr spare zs zero (calls T n) (refs, s) = some (refs ++ rs, s1) ∧
        s1.WF ∧ s1.v.len = s.v.len + n ∧
        (∀ i, i < s1.v.len → ∃ p, s1.elemAt i = some (some p)) := by
  intro n
  induction n with
  | zero =>
    intro refs s h hnn
    refine ⟨[], s, ?_, h, rfl, hnn⟩
    simp [calls, execPtr]
  | succ n ih =>
    intro refs s h hnn
    obtain ⟨rs, s1, he, hw, hlen, hnn1⟩ := ih refs s h hnn
    obtain ⟨p, s2, hn, hw2, hlen2, hcell, _, _, _, hel2, _⟩ := nextPtr_step spare zs zero s1 hw
    refine ⟨rs ++ [some p], s2, ?_, hw2, by omega, ?_⟩
    · rw [calls_succ, execPtr_append, he]
      simp only [Option.bind, execPtr, hn, List.append_assoc]
    · intro i hi
      by_cases hlt : i < s1.v.len
      · obtain ⟨q, hq⟩ := hnn1 i hlt
        refine ⟨q, ?_⟩
        rw [← hq]
        unfold PtrState.elemAt
        rw [if_pos hi, if_pos hlt]
        exact hel2 i hlt
      · have e : i = s1.v.len := by omega
        refine ⟨p, ?_⟩
        unfold PtrState.elemAt
        rw [if_pos hi, e]
        exact hcell

/-- C15: pointer variant, started on a well-formed slice of length 0 with any capacity and
any backing content. For every `N`, `N` invocations in sequence return and leave a slice of
length `N` whose element at every index below `N` is a non-nil pointer, to an allocated
object. -/
theorem nextPtr_all_non_nil {T : Type} (spare : Nat → Nat) (zs : Bool) (zero : T) (N : Nat)
    (s : PtrState T) (h : s.WF) (h0 : s.v.len = 0) :
    ∃ refs s1, execPtr spare zs zero (calls T N) ([], s) = some (refs, s1) ∧ s1.v.len = N ∧
      ∀ i, i < N → ∃ p, s1.elemAt i = some (some p) ∧ p < s1.objs.length ∧
        s1.elemAt i ≠ some none := by
  obtain ⟨rs, s1, he, hw, hlen, hnn⟩ := execPtr_calls_nonnil spare zs zero N [] s h
    (by
      intro i hi
      omega)
  refine ⟨[] ++ rs, s1, he, by omega, ?_⟩
  intro i hi
  obtain ⟨p, hp⟩ := hnn i (by omega)
  refine ⟨p, hp, ?_, ?_⟩
  · unfold PtrState.elemAt at hp
    rw [if_pos (by omega)] at hp
    exact valid_of_get s1 hw _ _ hp
  · rw [hp]
    intro hh
    exact Option.noConfusion (Option.some.inj hh)

/-- Witness for C15: four invocations on a slice of capacity 3 whose spare cells hold nil, a
pointer, nil. -/
theorem nextPtr_all_non_nil_witness :
    ∃ refs s1, execPtr (fun c => c - 1) false 0 (calls Nat 4)
        ([], (⟨[none, some 0, none], [9], ⟨0, 0, 3⟩⟩ : PtrState Nat)) = some (refs, s1) ∧
      s1.v.len = 4 ∧
      ∀ i, i < 4 → ∃ p, s1.elemAt i = some (some p) ∧ p < s1.objs.length ∧
        s1.elemAt i ≠ some none :=
  nextPtr_all_non_nil (fun c => c - 1) false 0 4 ⟨[none, some 0, none], [9], ⟨0, 0, 3⟩⟩ (by decide) rfl

end Internal
